import Mathlib

/-!
Verification development for `discipline.c`, a Python extension module with
two operations, `makedict` and `factorize`, built around a structured
resource-management discipline (the "do-once with break" unwind pattern).

The embedding models:
  * Python-level values reaching `makedict` (tuples and atomic objects, with
    C pointer identity kept separate from Python equality),
  * the typed failures the module raises (`PyErr_SetString` kinds, plus
    memory errors from failed host allocations),
  * the resource behaviour of both functions as a trace of acquire/release
    events over reference handles, with a host allocation oracle deciding
    which allocation attempts succeed, so that every failure path of the C
    code (validation errors, injected errors, and allocation failures,
    including `_PyTuple_Resize` failures which free the tuple in place) is
    represented,
  * the arithmetic of the trial-division loop (`uint64_t` values are
    modelled as `Nat`; all quantities reachable from a representable input
    stay exact).

Host calls that the C code performs are modelled at the granularity of the
references they create or destroy: `PyTuple_New`, `PyDict_New`,
`PyLong_FromUnsignedLongLong` each acquire one fresh handle;
`PyDict_SetItem` stores one new key reference and one new value reference
(releasing the overwritten value reference and the redundant key reference
on duplicate keys, as CPython does); `PyTuple_SET_ITEM` transfers ownership
without any event; `Py_XDECREF` releases a handle and, transitively, the
handles it owns.
-/

/-- Typed failures raised by the module: the `PyErr_SetString` kinds used in
the C code, plus the memory error produced by a failed host allocation. -/
inductive PyErr where
  | typeError (msg : String)
  | valueError (msg : String)
  | memoryError
  deriving DecidableEq, Repr

/-- A resource event observed by the host: acquisition of a new object
reference (allocation or incref) tagged with a fresh handle id, or release
of one (decref). -/
inductive REv where
  | acq (id : Nat)
  | rel (id : Nat)
  deriving DecidableEq, Repr

/-- Python values as `makedict` sees them: tuples of values, or atomic
objects.  An atom carries its address (C pointer identity), the key used by
Python equality `==`, and a flag marking instances of the `ExceptMe` type;
the flag is never inspected by the code, which compares addresses only. -/
inductive PyVal where
  | tuple (elems : List PyVal)
  | atom (addr : Nat) (eqKey : Nat) (exceptMeInst : Bool)

/-- Structural (syntactic) equality of modelled Python values, used only to
give `PyVal` decidable equality. -/
def pyValEqb : PyVal → PyVal → Bool
  | .atom a k b, .atom a2 k2 b2 => a == a2 && k == k2 && b == b2
  | .tuple [], .tuple [] => true
  | .tuple (x :: xs), .tuple (y :: ys) => pyValEqb x y && pyValEqb (.tuple xs) (.tuple ys)
  | .atom _ _ _, .tuple _ => false
  | .tuple _, .atom _ _ _ => false
  | .tuple [], .tuple (_ :: _) => false
  | .tuple (_ :: _), .tuple [] => false

/-- `pyValEqb` decides equality of `PyVal`. -/
theorem pyValEqb_iff : ∀ a b : PyVal, pyValEqb a b = true ↔ a = b
  | .atom a k b, .atom a2 k2 b2 => by simp [pyValEqb, and_assoc]
  | .tuple [], .tuple [] => by simp [pyValEqb]
  | .tuple (x :: xs), .tuple (y :: ys) => by
      have h1 := pyValEqb_iff x y
      have h2 := pyValEqb_iff (.tuple xs) (.tuple ys)
      simp only [pyValEqb, Bool.and_eq_true, h1, h2, PyVal.tuple.injEq, List.cons.injEq]
  | .atom _ _ _, .tuple _ => by simp [pyValEqb]
  | .tuple _, .atom _ _ _ => by simp [pyValEqb]
  | .tuple [], .tuple (_ :: _) => by simp [pyValEqb]
  | .tuple (_ :: _), .tuple [] => by simp [pyValEqb]

instance : DecidableEq PyVal := fun a b =>
  decidable_of_iff (pyValEqb a b = true) (pyValEqb_iff a b)

/-- The address of the static `ExceptMe_type` object. -/
def exceptMeAddr : Nat := 0

/-- The `ExceptMe` type object itself, as a Python value. -/
def ExceptMe : PyVal := .atom exceptMeAddr 0 false

/-- The identity test `first == (PyObject *)&ExceptMe_type` from the C code:
pointer comparison against the static type object. -/
def isExceptMeObj (v : PyVal) : Bool :=
  match v with
  | .atom a _ _ => a == exceptMeAddr
  | .tuple _ => false

/-- Python equality `==` between values: tuples compare elementwise, atoms
compare by their equality key, and a tuple never equals an atom. -/
def pyEq : PyVal → PyVal → Bool
  | .atom _ k _, .atom _ j _ => k == j
  | .tuple [], .tuple [] => true
  | .tuple (x :: xs), .tuple (y :: ys) => pyEq x y && pyEq (.tuple xs) (.tuple ys)
  | _, _ => false

/-- Python equality is reflexive. -/
theorem pyEq_refl (v : PyVal) : pyEq v v = true := by
  match v with
  | .atom a k b => simp [pyEq]
  | .tuple [] => simp [pyEq]
  | .tuple (x :: xs) =>
      have h1 := pyEq_refl x
      have h2 := pyEq_refl (.tuple xs)
      simp [pyEq, h1, h2]

/-- One stored entry of the dictionary under construction: the handle ids of
the key reference and value reference the dictionary owns, and the key and
value themselves. -/
structure MdEntry where
  keyRef : Nat
  valRef : Nat
  key : PyVal
  val : PyVal
  deriving DecidableEq

/-- `PyDict_SetItem(tempresult, first, second)` on the stored entries, with
reference bookkeeping: a fresh key reference `kr` and value reference `vr`
are acquired by the caller; on a duplicate key (Python equality) the
dictionary keeps the original key object and its reference, releasing the
redundant new key reference and the overwritten old value reference.
Returns the extra release events and the new entry list. -/
def imdSet (entries : List MdEntry) (kr vr : Nat) (k v : PyVal) :
    List REv × List MdEntry :=
  match entries with
  | [] => ([], [⟨kr, vr, k, v⟩])
  | e :: rest =>
      if pyEq e.key k then
        ([.rel kr, .rel e.valRef], ⟨e.keyRef, vr, e.key, v⟩ :: rest)
      else
        let s := imdSet rest kr vr k v
        (s.1, e :: s.2)

/-- Releasing the dictionary releases its own handle and, transitively, the
stored key and value references. -/
def relDict (d : Nat) (entries : List MdEntry) : List REv :=
  .rel d :: entries.foldr (fun e acc => .rel e.keyRef :: .rel e.valRef :: acc) []

/-- The element loop of `discipline_makedict` (lines 81-107 of the C code),
instrumented: for each element, shape validation (a 2-tuple), then the
`ExceptMe` identity check on both components, then `PyDict_SetItem` (a
fallible host call, consuming one oracle index and acquiring two fresh
reference handles on success).  Returns the events emitted inside the loop,
the final oracle index and fresh-handle counter, the dictionary entries,
and the error, if any. -/
def imdLoop (A : Nat → Bool) :
    List PyVal → Nat → Nat → List MdEntry →
    List REv × Nat × Nat × List MdEntry × Option PyErr
  | [], ac, next, entries => ([], ac, next, entries, none)
  | item :: rest, ac, next, entries =>
      match item with
      | .tuple [first, second] =>
          if isExceptMeObj first || isExceptMeObj second then
            ([], ac, next, entries, some (.valueError "ExceptMe object found"))
          else if A ac then
            let s := imdSet entries next (next + 1) first second
            let r := imdLoop A rest (ac + 1) (next + 2) s.2
            (.acq next :: .acq (next + 1) :: s.1 ++ r.1,
             r.2.1, r.2.2.1, r.2.2.2.1, r.2.2.2.2)
          else
            ([], ac + 1, next, entries, some .memoryError)
      | _ => ([], ac, next, entries, some (.typeError "expecting a 2-tuple"))

/-- `discipline_makedict`, instrumented.  Takes the already-parsed
arguments (the `"Os"` conversion is the host calling convention); emits the
diagnostic line first, unconditionally; then checks that `items` is a
tuple; then allocates the dictionary (handle 0) and runs the element loop.
On any error after the allocation, the dictionary and everything it owns
are released by the `Py_XDECREF(tempresult)` at the end of the C function;
on success the dictionary is committed to the caller and nothing is
released.  Returns the diagnostic lines, the resource-event trace, and the
result (the committed dictionary as its entry list, in insertion order). -/
def imakedict (A : Nat → Bool) (items : PyVal) (msg : String) :
    List String × List REv × Except PyErr (List (PyVal × PyVal)) :=
  (["makedict says: “" ++ msg ++ "”"],
   match items with
   | .atom _ _ _ => ([], .error (.typeError "expecting a tuple"))
   | .tuple elems =>
       if A 0 then
         let r := imdLoop A elems 1 1 []
         match r.2.2.2.2 with
         | some e => (.acq 0 :: r.1 ++ relDict 0 r.2.2.2.1, .error e)
         | none => (.acq 0 :: r.1, .ok (r.2.2.2.1.map fun e => (e.key, e.val)))
       else ([], .error .memoryError))

/-- Decidable equality for `Except` results, needed to let concrete runs be
checked by `decide`. -/
instance {e a : Type} [DecidableEq e] [DecidableEq a] :
    DecidableEq (Except e a) := fun x y =>
  match x, y with
  | .error u, .error v =>
      if h : u = v then isTrue (by rw [h]) else isFalse (by simp [h])
  | .ok u, .ok v =>
      if h : u = v then isTrue (by rw [h]) else isFalse (by simp [h])
  | .error _, .ok _ => isFalse (by simp)
  | .ok _, .error _ => isFalse (by simp)

/-- The allocation oracle under which every host allocation succeeds. -/
def allocOk : Nat → Bool := fun _ => true

/-- The observable behaviour of `makedict` when the host does not run out
of memory: the emitted diagnostic lines and the result. -/
def makedict (items : PyVal) (msg : String) :
    List String × Except PyErr (List (PyVal × PyVal)) :=
  ((imakedict allocOk items msg).1, (imakedict allocOk items msg).2.2)

/-- Dictionary lookup by Python equality, as `PyDict_GetItem` would see the
committed dictionary. -/
def dictGet (d : List (PyVal × PyVal)) (k : PyVal) : Option PyVal :=
  match d with
  | [] => none
  | (k₀, v₀) :: rest => if pyEq k₀ k then some v₀ else dictGet rest k

/-- One record stored in the growing result tuple of `factorize`: the handle
ids of the 2-tuple element, its factor integer and its power integer, and
the recorded factor and multiplicity. -/
structure IRec where
  eltId : Nat
  fId : Nat
  pId : Nat
  factor : Nat
  power : Nat
  deriving DecidableEq, Repr

/-- The result tuple under construction: its allocated capacity
(`nr_allocated`) and the records stored so far (`nr_used` is their
number). -/
structure IBuf where
  cap : Nat
  recs : List IRec
  deriving DecidableEq, Repr

/-- Releasing one stored factor record releases its 2-tuple and,
transitively, the two integers it owns. -/
def relElt (r : IRec) : List REv :=
  [.rel r.eltId, .rel r.fId, .rel r.pId]

/-- Releasing the result tuple releases its own handle and, transitively,
every stored record. -/
def relBuf (t : Nat) (buf : IBuf) : List REv :=
  .rel t :: buf.recs.foldr (fun r acc => relElt r ++ acc) []

/-- All handle ids owned (directly or transitively) by the stored records. -/
def recIds (recs : List IRec) : List Nat :=
  recs.foldr (fun r acc => r.eltId :: r.fId :: r.pId :: acc) []

/-- All handle ids owned by the dictionary entries. -/
def entIds (entries : List MdEntry) : List Nat :=
  entries.foldr (fun e acc => e.keyRef :: e.valRef :: acc) []

/-- The inner `while` of the factor loop (lines 167-173 of the C code):
given the current remaining `n`, repeatedly divide by `factor`, counting
the multiplicity.  Returns `(power, remaining)`.  At every reachable call
site `factor` is at least 2, `n` is positive and divisible by `factor`, so
the returned power is at least 1. -/
def divOut (factor n : Nat) : Nat × Nat :=
  if h : 2 ≤ factor ∧ 0 < n ∧ n % factor = 0 then
    let s := divOut factor (n / factor)
    (s.1 + 1, s.2)
  else (0, n)
termination_by n
decreasing_by
  exact Nat.div_lt_self h.2.1 (by omega)

/-- Specification of `divOut`: it factors `n` as
`factor ^ power * remaining` with the remaining part positive and not
divisible by `factor`. -/
theorem divOut_spec : ∀ (n factor : Nat), 2 ≤ factor → 0 < n →
    factor ^ (divOut factor n).1 * (divOut factor n).2 = n ∧
    ¬ factor ∣ (divOut factor n).2 ∧ 0 < (divOut factor n).2 := by
  intro n
  induction n using Nat.strong_induction_on with
  | _ n ih =>
    intro factor hf hn
    rw [divOut]
    split
    · rename_i h
      have hdvd : factor ∣ n := Nat.dvd_of_mod_eq_zero h.2.2
      have hlt : n / factor < n := Nat.div_lt_self hn (by omega)
      have hpos : 0 < n / factor :=
        Nat.div_pos (Nat.le_of_dvd hn hdvd) (by omega)
      obtain ⟨h1, h2, h3⟩ := ih (n / factor) hlt factor hf hpos
      refine ⟨?_, h2, h3⟩
      simp only [pow_succ]
      calc factor ^ (divOut factor (n / factor)).1 * factor *
            (divOut factor (n / factor)).2
          = factor * (factor ^ (divOut factor (n / factor)).1 *
            (divOut factor (n / factor)).2) := by ring
        _ = factor * (n / factor) := by rw [h1]
        _ = n := Nat.mul_div_cancel' hdvd
    · rename_i h
      have hmod : n % factor ≠ 0 := fun hm => h ⟨hf, hn, hm⟩
      refine ⟨by simp, ?_, by simpa using hn⟩
      simp only []
      intro hdvd
      exact hmod (Nat.mod_eq_zero_of_dvd hdvd)

/-- When `factor` actually divides `n`, dividing it out strictly decreases
`n` and produces a positive multiplicity. -/
theorem divOut_lt (factor n : Nat) (hf : 2 ≤ factor) (hn : 0 < n)
    (hd : n % factor = 0) :
    (divOut factor n).2 < n ∧ 1 ≤ (divOut factor n).1 := by
  obtain ⟨h1, h2, h3⟩ := divOut_spec n factor hf hn
  have hp : 1 ≤ (divOut factor n).1 := by
    by_contra hp
    have : (divOut factor n).1 = 0 := by omega
    rw [this, pow_zero, one_mul] at h1
    exact h2 (by rw [h1]; exact Nat.dvd_of_mod_eq_zero hd)
  refine ⟨?_, hp⟩
  have hpow : 2 ≤ factor ^ (divOut factor n).1 := by
    calc 2 = 2 ^ 1 := by norm_num
      _ ≤ factor ^ 1 := by simpa using hf
      _ ≤ factor ^ (divOut factor n).1 := Nat.pow_le_pow_right (by omega) hp
  nlinarith [h3, h1]

/-- The factor loop of `discipline_factorize` (lines 153-218 of the C
code), instrumented.  `t` is the handle of the result tuple the loop fills,
`A` the host allocation oracle, `ac` the next oracle index, `next` the next
fresh handle id.  The loop invariants of the C code (`n ≥ 1`, `factor ≥ 2`,
`step ≥ 1`) are carried as hypotheses; they hold at every reachable call
and make the recursion well founded.

Each discovered factor allocates the 2-tuple element, divides out the
factor counting its multiplicity, applies the two injected failure checks,
allocates the two integers, transfers them into the element, grows the
result tuple by 10 slots when it is full (`_PyTuple_Resize`, a fallible
call that on failure frees the tuple together with everything it holds and
leaves `tempresult` cleared), then stores the element.  On failure of any
step the locals still owned at that point are released, mirroring the
`Py_XDECREF` unwind of the inner do-once block.

Returns the events emitted inside the loop, the final oracle index and
fresh-handle counter, the buffer, whether the result tuple was already
released in place (`_PyTuple_Resize` failure), and the outcome: an error,
or the final remaining `n` and final trial factor at the loop exit. -/
def ifacLoop (t : Nat) (A : Nat → Bool) (n factor step ac next : Nat)
    (buf : IBuf) (hn : 0 < n) (hf : 2 ≤ factor) (hs : 1 ≤ step) :
    List REv × Nat × Nat × IBuf × Bool × Except PyErr (Nat × Nat) :=
  if hdvd : n % factor = 0 then
    if A ac then
      let e := next
      let power := (divOut factor n).1
      let n2 := (divOut factor n).2
      if factor = 5 then
        ([.acq e, .rel e], ac + 1, next + 1, buf, false,
         .error (.valueError "Aiee! Unlucky factor 5 found!"))
      else if power = 5 then
        ([.acq e, .rel e], ac + 1, next + 1, buf, false,
         .error (.valueError "Aiee! Unlucky power 5 found!"))
      else if A (ac + 1) then
        let f := next + 1
        if A (ac + 2) then
          let p := next + 2
          if buf.recs.length = buf.cap then
            if A (ac + 3) then
              let buf2 : IBuf :=
                ⟨buf.cap + 10, buf.recs ++ [⟨e, f, p, factor, power⟩]⟩
              let r := ifacLoop t A n2 (factor + step) 2 (ac + 4) (next + 3)
                buf2 (divOut_spec n factor hf hn).2.2 (by omega) (by omega)
              (.acq e :: .acq f :: .acq p :: r.1, r.2)
            else
              (.acq e :: .acq f :: .acq p ::
                 relBuf t buf ++ [.rel e, .rel f, .rel p],
               ac + 4, next + 3, buf, true, .error .memoryError)
          else
            let buf2 : IBuf :=
              ⟨buf.cap, buf.recs ++ [⟨e, f, p, factor, power⟩]⟩
            let r := ifacLoop t A n2 (factor + step) 2 (ac + 3) (next + 3)
              buf2 (divOut_spec n factor hf hn).2.2 (by omega) (by omega)
            (.acq e :: .acq f :: .acq p :: r.1, r.2)
        else
          ([.acq e, .acq f, .rel f, .rel e], ac + 3, next + 2, buf, false,
           .error .memoryError)
      else
        ([.acq e, .rel e], ac + 2, next + 1, buf, false, .error .memoryError)
    else
      ([], ac + 1, next, buf, false, .error .memoryError)
  else if hbig : factor * factor > n then
    ([], ac, next, buf, false, .ok (n, factor))
  else
    ifacLoop t A n (factor + step) 2 ac next buf hn (by omega) (by omega)
termination_by (n, n + 2 - factor)
decreasing_by
  · exact Prod.Lex.left _ _ ((divOut_lt factor n hf hn hdvd).1)
  · exact Prod.Lex.left _ _ ((divOut_lt factor n hf hn hdvd).1)
  · have hfl : factor ≤ factor * factor :=
      Nat.le_mul_of_pos_left factor (by omega)
    exact Prod.Lex.right _ (by omega)

/-- `discipline_factorize`, instrumented.  Takes the already-parsed input
(the conversion from a Python integer, including its overflow behaviour, is
the host calling convention).  Inputs below 2 are rejected before anything
is allocated.  Otherwise the result tuple is allocated with 10 slots
(handle 0) and the factor loop runs; at the end the tuple is trimmed to the
used length by a final fallible `_PyTuple_Resize`.  On any error the
`Py_XDECREF(tempresult)` at the end of the C function releases the tuple
and everything it holds, unless a failed resize already released it in
place.  Returns the full event trace and the outcome: the trimmed buffer
together with the final remaining `n` and final trial factor, or the
error. -/
def ifactorize (A : Nat → Bool) (n : Nat) :
    List REv × Except PyErr (IBuf × Nat × Nat) :=
  if h : n < 2 then
    ([], .error (.valueError "cannot factorize one or zero"))
  else if A 0 then
    let r := ifacLoop 0 A n 2 1 1 1 ⟨10, []⟩ (by omega) (by omega) (by omega)
    match r.2.2.2.2.2 with
    | .error e =>
        (.acq 0 :: r.1 ++ (if r.2.2.2.2.1 then [] else relBuf 0 r.2.2.2.1),
         .error e)
    | .ok (m, fl) =>
        if A r.2.1 then
          (.acq 0 :: r.1, .ok (⟨r.2.2.2.1.recs.length, r.2.2.2.1.recs⟩, m, fl))
        else
          (.acq 0 :: r.1 ++ relBuf 0 r.2.2.2.1, .error .memoryError)
  else
    ([], .error .memoryError)

/-- The observable behaviour of `factorize` when the host does not run out
of memory: the returned sequence of (factor, multiplicity) pairs, in
discovery order, or the error. -/
def factorize (n : Nat) : Except PyErr (List (Nat × Nat)) :=
  match (ifactorize allocOk n).2 with
  | .error e => .error e
  | .ok (buf, _, _) => .ok (buf.recs.map fun r => (r.factor, r.power))

/-- The product of `factor ^ multiplicity` over a returned factor list. -/
def prodPow (l : List (Nat × Nat)) : Nat :=
  l.foldr (fun fm acc => fm.1 ^ fm.2 * acc) 1

/-- The capacity the growth policy produces for a buffer holding `len`
records: 10 slots at the start, 10 more each time the used length reaches
the capacity, i.e. ten times the number of started blocks of ten. -/
def capFor (len : Nat) : Nat := 10 * max 1 ((len + 9) / 10)

/-- Claim C4: `factorize 12` returns the sequence `((2, 2), (3, 1))` and
`factorize 2` returns `((2, 1))`, each pair being (prime factor,
multiplicity) in the order the factors are discovered. -/
theorem factorize_12_and_2 :
    factorize 12 = .ok [(2, 2), (3, 1)] ∧ factorize 2 = .ok [(2, 1)] := by
  refine ⟨?_, ?_⟩ <;>
    simp [factorize, ifactorize, ifacLoop, divOut, allocOk]

/-- Claim C2, counterexample: `factorize 10` does not fail with the
injected error; it succeeds and returns `((2, 1))`, because after 2 is
divided out the remaining 5 is never tested: the loop breaks at factor 3
since `3 * 3 > 5`. -/
theorem factorize_10_succeeds : factorize 10 = .ok [(2, 1)] := by
  simp [factorize, ifactorize, ifacLoop, divOut, allocOk]

/-- Claim C2 (amended): `factorize 10` succeeds with `((2, 1))` because the
leftover factor 5 is never discovered (the loop stops once `3 * 3 > 5`);
`factorize 32` fails with the injected ValueError because the multiplicity
of 2 is 5; `factorize 15` fails with the injected ValueError because 5 is
actually discovered as a factor; and in general, whenever the loop
discovers a factor equal to 5, or a discovered factor has multiplicity 5,
the call aborts with the corresponding injected error. -/
theorem injected_failures :
    factorize 10 = .ok [(2, 1)] ∧
    factorize 32 = .error (.valueError "Aiee! Unlucky power 5 found!") ∧
    factorize 15 = .error (.valueError "Aiee! Unlucky factor 5 found!") ∧
    (∀ t A n step ac next buf hn hf hs, n % 5 = 0 → A ac = true →
      ifacLoop t A n 5 step ac next buf hn hf hs =
        ([.acq next, .rel next], ac + 1, next + 1, buf, false,
         .error (.valueError "Aiee! Unlucky factor 5 found!"))) ∧
    (∀ t A n factor step ac next buf hn hf hs,
      n % factor = 0 → A ac = true → factor ≠ 5 →
      (divOut factor n).1 = 5 →
      ifacLoop t A n factor step ac next buf hn hf hs =
        ([.acq next, .rel next], ac + 1, next + 1, buf, false,
         .error (.valueError "Aiee! Unlucky power 5 found!"))) := by
  refine ⟨?_, ?_, ?_, ?_, ?_⟩
  · simp [factorize, ifactorize, ifacLoop, divOut, allocOk]
  · simp [factorize, ifactorize, ifacLoop, divOut, allocOk]
  · simp [factorize, ifactorize, ifacLoop, divOut, allocOk]
  · intro t A n step ac next buf hn hf hs hd hA
    rw [ifacLoop]
    simp [hd, hA]
  · intro t A n factor step ac next buf hn hf hs hd hA hf5 hp5
    rw [ifacLoop]
    simp [hd, hA, hf5, hp5]

/-- Claim C7: `makedict` emits exactly one diagnostic line, containing the
caller-supplied message, to the output sink; the emission happens before
any validation of the pairs argument and is unconditional — the very same
single line is produced for every input and every allocation oracle,
whether the call succeeds or fails, and is never rolled back. -/
theorem makedict_diag_line (A : Nat → Bool) (items : PyVal) (msg : String) :
    (imakedict A items msg).1 = ["makedict says: “" ++ msg ++ "”"] ∧
    (makedict items msg).1 = ["makedict says: “" ++ msg ++ "”"] := by
  exact ⟨rfl, rfl⟩

/-- Claim C6: `makedict` validates in a fixed order, each violation a
distinct failure kind and the first violation aborting: a non-tuple pairs
argument fails with the TypeError "expecting a tuple"; elements are
checked lazily in sequence order, a first element that is not a 2-tuple
aborting with the TypeError "expecting a 2-tuple" regardless of the
remaining elements (so `makedict((1, 2, 3), msg)` fails with the 2-tuple
shape error, and a 1-tuple containing the sentinel fails with the shape
error, not the sentinel error — shape is checked before the sentinel); a
well-shaped pair containing the sentinel fails with the ValueError
"ExceptMe object found". -/
theorem makedict_validation_order :
    (∀ a k b msg, (makedict (.atom a k b) msg).2 =
      .error (.typeError "expecting a tuple")) ∧
    (makedict (.tuple [.atom 1 1 false, .atom 2 2 false, .atom 3 3 false])
        "msg").2 = .error (.typeError "expecting a 2-tuple") ∧
    (∀ a k b rest msg,
      (makedict (.tuple (.atom a k b :: rest)) msg).2 =
        .error (.typeError "expecting a 2-tuple")) ∧
    (∀ x rest msg,
      (makedict (.tuple (.tuple [x] :: rest)) msg).2 =
        .error (.typeError "expecting a 2-tuple")) ∧
    (∀ v rest msg,
      (makedict (.tuple (.tuple [ExceptMe, v] :: rest)) msg).2 =
        .error (.valueError "ExceptMe object found")) := by
  refine ⟨?_, ?_, ?_, ?_, ?_⟩
  · intro a k b msg
    simp [makedict, imakedict]
  · simp [makedict, imakedict, imdLoop, allocOk]
  · intro a k b rest msg
    simp [makedict, imakedict, imdLoop, allocOk]
  · intro x rest msg
    simp [makedict, imakedict, imdLoop, allocOk]
  · intro v rest msg
    simp [makedict, imakedict, imdLoop, allocOk, isExceptMeObj, ExceptMe]

/-- Claim C5: `makedict` on two pairs with distinct keys returns a mapping
with exactly those two entries, in insertion order; on two pairs with the
same key it returns a mapping in which that key maps to the second value —
the later duplicate key silently overwrites the earlier one
(last-write-wins), and looking the key up yields the last-written value. -/
theorem makedict_mapping (k1 v1 k2 v2 k w1 w2 : PyVal) (msg : String)
    (e1 : isExceptMeObj k1 = false) (e2 : isExceptMeObj v1 = false)
    (e3 : isExceptMeObj k2 = false) (e4 : isExceptMeObj v2 = false)
    (hk : pyEq k1 k2 = false)
    (e5 : isExceptMeObj k = false) (e6 : isExceptMeObj w1 = false)
    (e7 : isExceptMeObj w2 = false) :
    (makedict (.tuple [.tuple [k1, v1], .tuple [k2, v2]]) msg).2 =
      .ok [(k1, v1), (k2, v2)] ∧
    (makedict (.tuple [.tuple [k, w1], .tuple [k, w2]]) msg).2 =
      .ok [(k, w2)] ∧
    dictGet [(k, w2)] k = some w2 := by
  refine ⟨?_, ?_, ?_⟩
  · simp [makedict, imakedict, imdLoop, imdSet, allocOk, e1, e2, e3, e4, hk]
  · simp [makedict, imakedict, imdLoop, imdSet, allocOk, e5, e6, e7,
      pyEq_refl]
  · simp [dictGet, pyEq_refl]

/-- Claim C5 witness at concrete values. -/
theorem makedict_mapping_witness :
    (makedict (.tuple [.tuple [.atom 1 1 false, .atom 2 2 false],
        .tuple [.atom 3 3 false, .atom 4 4 false]]) "m").2 =
      .ok [(.atom 1 1 false, .atom 2 2 false),
           (.atom 3 3 false, .atom 4 4 false)] ∧
    (makedict (.tuple [.tuple [.atom 5 5 false, .atom 6 6 false],
        .tuple [.atom 5 5 false, .atom 7 7 false]]) "m").2 =
      .ok [(.atom 5 5 false, .atom 7 7 false)] ∧
    dictGet [(.atom 5 5 false, .atom 7 7 false)] (.atom 5 5 false) =
      some (.atom 7 7 false) :=
  makedict_mapping (.atom 1 1 false) (.atom 2 2 false) (.atom 3 3 false)
    (.atom 4 4 false) (.atom 5 5 false) (.atom 6 6 false) (.atom 7 7 false)
    "m" (by simp [isExceptMeObj, exceptMeAddr])
    (by simp [isExceptMeObj, exceptMeAddr])
    (by simp [isExceptMeObj, exceptMeAddr])
    (by simp [isExceptMeObj, exceptMeAddr])
    (by simp [pyEq])
    (by simp [isExceptMeObj, exceptMeAddr])
    (by simp [isExceptMeObj, exceptMeAddr])
    (by simp [isExceptMeObj, exceptMeAddr])

/-- Claim C10: `makedict` raises the forbidden-value error for a pair
element exactly when that element is the `ExceptMe` type object itself,
compared by identity (C pointer comparison against `&ExceptMe_type`): the
sentinel in either position of a pair triggers the error, while any object
at a different address — including one that merely compares equal to the
sentinel under Python equality, and including an instance of `ExceptMe` —
does not trigger it. -/
theorem exceptme_identity_check (v : PyVal) (a k : Nat) (b : Bool)
    (msg : String)
    (hv : isExceptMeObj v = false) (ha : a ≠ exceptMeAddr) :
    (makedict (.tuple [.tuple [ExceptMe, v]]) msg).2 =
      .error (.valueError "ExceptMe object found") ∧
    (makedict (.tuple [.tuple [v, ExceptMe]]) msg).2 =
      .error (.valueError "ExceptMe object found") ∧
    pyEq (.atom a 0 b) ExceptMe = true ∧
    (makedict (.tuple [.tuple [.atom a 0 b, v]]) msg).2 =
      .ok [(.atom a 0 b, v)] ∧
    (makedict (.tuple [.tuple [.atom a k true, v]]) msg).2 =
      .ok [(.atom a k true, v)] := by
  have hsent : ∀ j c, isExceptMeObj (PyVal.atom a j c) = false := by
    intro j c
    simp [isExceptMeObj, ha]
  refine ⟨?_, ?_, ?_, ?_, ?_⟩
  · simp [makedict, imakedict, imdLoop, allocOk, isExceptMeObj, ExceptMe]
  · simp [makedict, imakedict, imdLoop, allocOk, isExceptMeObj, ExceptMe, hv]
  · simp [pyEq, ExceptMe]
  · simp [makedict, imakedict, imdLoop, imdSet, allocOk, hv, hsent]
  · simp [makedict, imakedict, imdLoop, imdSet, allocOk, hv, hsent]

/-- Claim C10 witness at concrete values: address 3 differs from the
sentinel address, equality key 0 makes it compare equal to the sentinel,
and the instance flag marks an `ExceptMe` instance. -/
theorem exceptme_identity_check_witness :
    (makedict (.tuple [.tuple [ExceptMe, .atom 9 9 false]]) "m").2 =
      .error (.valueError "ExceptMe object found") ∧
    (makedict (.tuple [.tuple [.atom 9 9 false, ExceptMe]]) "m").2 =
      .error (.valueError "ExceptMe object found") ∧
    pyEq (.atom 3 0 false) ExceptMe = true ∧
    (makedict (.tuple [.tuple [.atom 3 0 false, .atom 9 9 false]]) "m").2 =
      .ok [(.atom 3 0 false, .atom 9 9 false)] ∧
    (makedict (.tuple [.tuple [.atom 3 7 true, .atom 9 9 false]]) "m").2 =
      .ok [(.atom 3 7 true, .atom 9 9 false)] := by
  have h1 : isExceptMeObj (.atom 9 9 false) = false := by
    simp [isExceptMeObj, exceptMeAddr]
  have h2 : (3 : Nat) ≠ exceptMeAddr := by
    simp [exceptMeAddr]
  have h := exceptme_identity_check (.atom 9 9 false) 3 7 false "m" h1 h2
  exact ⟨h.1, h.2.1, h.2.2.1, h.2.2.2.1, h.2.2.2.2⟩

/-- Claim C2 witness: the general injected-failure parts applied at
concrete loop states — discovering factor 5 on input 25, and discovering
multiplicity 5 of factor 2 on input 32. -/
theorem injected_failures_witness :
    ifacLoop 0 allocOk 25 5 2 1 1 ⟨10, []⟩ (by norm_num) (by norm_num)
        (by norm_num) =
      ([.acq 1, .rel 1], 2, 2, ⟨10, []⟩, false,
       .error (.valueError "Aiee! Unlucky factor 5 found!")) ∧
    ifacLoop 0 allocOk 32 2 1 1 1 ⟨10, []⟩ (by norm_num) (by norm_num)
        (by norm_num) =
      ([.acq 1, .rel 1], 2, 2, ⟨10, []⟩, false,
       .error (.valueError "Aiee! Unlucky power 5 found!")) :=
  ⟨injected_failures.2.2.2.1 0 allocOk 25 2 1 1 ⟨10, []⟩ (by norm_num)
      (by norm_num) (by norm_num) (by norm_num) rfl,
   injected_failures.2.2.2.2 0 allocOk 32 2 1 1 1 ⟨10, []⟩ (by norm_num)
      (by norm_num) (by norm_num) (by norm_num) rfl (by norm_num)
      (by simp [divOut])⟩

/-- Fuel-indexed evaluator for `divOut`, used only to let the kernel
compute concrete runs (the well-founded recursion of `divOut` itself does
not reduce definitionally). -/
def divOutF (fuel factor n : Nat) : Option (Nat × Nat) :=
  match fuel with
  | 0 => none
  | fuel + 1 =>
      if 2 ≤ factor ∧ 0 < n ∧ n % factor = 0 then
        match divOutF fuel factor (n / factor) with
        | some s => some (s.1 + 1, s.2)
        | none => none
      else some (0, n)

/-- The fuel-indexed evaluator agrees with `divOut` whenever it returns. -/
theorem divOutF_eq (fuel : Nat) : ∀ (factor n : Nat) (s : Nat × Nat),
    divOutF fuel factor n = some s → divOut factor n = s := by
  induction fuel with
  | zero => intro factor n s h; simp [divOutF] at h
  | succ fuel ih =>
      intro factor n s h
      unfold divOutF at h
      rw [divOut]
      split at h
      · rename_i hcond
        rw [dif_pos hcond]
        split at h
        · rename_i s2 hs2
          rw [ih factor (n / factor) s2 hs2]
          simpa using h
        · exact absurd h (by simp)
      · rename_i hcond
        rw [dif_neg hcond]
        simpa using h

/-- Branch lemma: loop exit — the current factor does not divide the
remaining `n` and `factor * factor > n`. -/
theorem ifacLoop_break (t : Nat) (A : Nat → Bool) (n factor step ac next : Nat)
    (buf : IBuf) (hn : 0 < n) (hf : 2 ≤ factor) (hs : 1 ≤ step)
    (h1 : ¬ n % factor = 0) (h2 : factor * factor > n) :
    ifacLoop t A n factor step ac next buf hn hf hs =
      ([], ac, next, buf, false, .ok (n, factor)) := by
  rw [ifacLoop]
  simp [h1, h2]

/-- Branch lemma: the current factor neither divides nor exceeds the square
root of the remaining `n`; the loop advances to the next candidate. -/
theorem ifacLoop_skip (t : Nat) (A : Nat → Bool) (n factor step ac next : Nat)
    (buf : IBuf) (hn : 0 < n) (hf : 2 ≤ factor) (hs : 1 ≤ step)
    (h1 : ¬ n % factor = 0) (h2 : ¬ factor * factor > n) :
    ifacLoop t A n factor step ac next buf hn hf hs =
      ifacLoop t A n (factor + step) 2 ac next buf hn (by omega) (by omega) := by
  conv_lhs => rw [ifacLoop]
  simp [h1, h2]

/-- Branch lemma: allocation of the 2-tuple element fails. -/
theorem ifacLoop_nomem0 (t : Nat) (A : Nat → Bool) (n factor step ac next : Nat)
    (buf : IBuf) (hn : 0 < n) (hf : 2 ≤ factor) (hs : 1 ≤ step)
    (hdvd : n % factor = 0) (hA : A ac = false) :
    ifacLoop t A n factor step ac next buf hn hf hs =
      ([], ac + 1, next, buf, false, .error .memoryError) := by
  rw [ifacLoop]
  simp [hdvd, hA]

/-- Branch lemma: the discovered factor is the unlucky 5. -/
theorem ifacLoop_factor5 (t : Nat) (A : Nat → Bool) (n factor step ac next : Nat)
    (buf : IBuf) (hn : 0 < n) (hf : 2 ≤ factor) (hs : 1 ≤ step)
    (hdvd : n % factor = 0) (hA : A ac = true) (h5 : factor = 5) :
    ifacLoop t A n factor step ac next buf hn hf hs =
      ([.acq next, .rel next], ac + 1, next + 1, buf, false,
       .error (.valueError "Aiee! Unlucky factor 5 found!")) := by
  subst h5
  rw [ifacLoop]
  simp [hdvd, hA]

/-- Branch lemma: the discovered multiplicity is the unlucky 5. -/
theorem ifacLoop_power5 (t : Nat) (A : Nat → Bool) (n factor step ac next : Nat)
    (buf : IBuf) (hn : 0 < n) (hf : 2 ≤ factor) (hs : 1 ≤ step)
    (hdvd : n % factor = 0) (hA : A ac = true) (hf5 : ¬ factor = 5)
    (hp5 : (divOut factor n).1 = 5) :
    ifacLoop t A n factor step ac next buf hn hf hs =
      ([.acq next, .rel next], ac + 1, next + 1, buf, false,
       .error (.valueError "Aiee! Unlucky power 5 found!")) := by
  rw [ifacLoop]
  simp [hdvd, hA, hf5, hp5]

/-- Branch lemma: allocation of the factor integer fails; the element is
released. -/
theorem ifacLoop_nomem1 (t : Nat) (A : Nat → Bool) (n factor step ac next : Nat)
    (buf : IBuf) (hn : 0 < n) (hf : 2 ≤ factor) (hs : 1 ≤ step)
    (hdvd : n % factor = 0) (hA : A ac = true) (hf5 : ¬ factor = 5)
    (hp5 : ¬ (divOut factor n).1 = 5) (hA1 : A (ac + 1) = false) :
    ifacLoop t A n factor step ac next buf hn hf hs =
      ([.acq next, .rel next], ac + 2, next + 1, buf, false,
       .error .memoryError) := by
  rw [ifacLoop]
  simp [hdvd, hA, hf5, hp5, hA1]

/-- Branch lemma: allocation of the power integer fails; the factor integer
and then the element are released, in the order of the C unwind. -/
theorem ifacLoop_nomem2 (t : Nat) (A : Nat → Bool) (n factor step ac next : Nat)
    (buf : IBuf) (hn : 0 < n) (hf : 2 ≤ factor) (hs : 1 ≤ step)
    (hdvd : n % factor = 0) (hA : A ac = true) (hf5 : ¬ factor = 5)
    (hp5 : ¬ (divOut factor n).1 = 5) (hA1 : A (ac + 1) = true)
    (hA2 : A (ac + 2) = false) :
    ifacLoop t A n factor step ac next buf hn hf hs =
      ([.acq next, .acq (next + 1), .rel (next + 1), .rel next],
       ac + 3, next + 2, buf, false, .error .memoryError) := by
  rw [ifacLoop]
  simp [hdvd, hA, hf5, hp5, hA1, hA2]

/-- Branch lemma: the result tuple is full and the growing resize fails:
the host frees the tuple together with everything it holds and clears
`tempresult`; the unwind then releases the element (which owns the two
integers). -/
theorem ifacLoop_resizefail (t : Nat) (A : Nat → Bool)
    (n factor step ac next : Nat)
    (buf : IBuf) (hn : 0 < n) (hf : 2 ≤ factor) (hs : 1 ≤ step)
    (hdvd : n % factor = 0) (hA : A ac = true) (hf5 : ¬ factor = 5)
    (hp5 : ¬ (divOut factor n).1 = 5) (hA1 : A (ac + 1) = true)
    (hA2 : A (ac + 2) = true) (hfull : buf.recs.length = buf.cap)
    (hA3 : A (ac + 3) = false) :
    ifacLoop t A n factor step ac next buf hn hf hs =
      (.acq next :: .acq (next + 1) :: .acq (next + 2) ::
         relBuf t buf ++ [.rel next, .rel (next + 1), .rel (next + 2)],
       ac + 4, next + 3, buf, true, .error .memoryError) := by
  rw [ifacLoop]
  simp [hdvd, hA, hf5, hp5, hA1, hA2, hfull, hA3]

/-- Branch lemma: a factor record is completed and stored after a
successful growing resize of the full result tuple. -/
theorem ifacLoop_div_grow (t : Nat) (A : Nat → Bool)
    (n factor step ac next : Nat)
    (buf : IBuf) (hn : 0 < n) (hf : 2 ≤ factor) (hs : 1 ≤ step)
    (hdvd : n % factor = 0) (hA : A ac = true) (hf5 : ¬ factor = 5)
    (hp5 : ¬ (divOut factor n).1 = 5) (hA1 : A (ac + 1) = true)
    (hA2 : A (ac + 2) = true) (hfull : buf.recs.length = buf.cap)
    (hA3 : A (ac + 3) = true) :
    ifacLoop t A n factor step ac next buf hn hf hs =
      (.acq next :: .acq (next + 1) :: .acq (next + 2) ::
         (ifacLoop t A (divOut factor n).2 (factor + step) 2 (ac + 4)
           (next + 3)
           ⟨buf.cap + 10, buf.recs ++
             [⟨next, next + 1, next + 2, factor, (divOut factor n).1⟩]⟩
           (divOut_spec n factor hf hn).2.2 (by omega) (by omega)).1,
       (ifacLoop t A (divOut factor n).2 (factor + step) 2 (ac + 4)
           (next + 3)
           ⟨buf.cap + 10, buf.recs ++
             [⟨next, next + 1, next + 2, factor, (divOut factor n).1⟩]⟩
           (divOut_spec n factor hf hn).2.2 (by omega) (by omega)).2) := by
  conv_lhs => rw [ifacLoop]
  simp [hdvd, hA, hf5, hp5, hA1, hA2, hfull, hA3]

/-- Branch lemma: a factor record is completed and stored without any
resize (the result tuple still has room). -/
theorem ifacLoop_div_nogrow (t : Nat) (A : Nat → Bool)
    (n factor step ac next : Nat)
    (buf : IBuf) (hn : 0 < n) (hf : 2 ≤ factor) (hs : 1 ≤ step)
    (hdvd : n % factor = 0) (hA : A ac = true) (hf5 : ¬ factor = 5)
    (hp5 : ¬ (divOut factor n).1 = 5) (hA1 : A (ac + 1) = true)
    (hA2 : A (ac + 2) = true) (hfull : ¬ buf.recs.length = buf.cap) :
    ifacLoop t A n factor step ac next buf hn hf hs =
      (.acq next :: .acq (next + 1) :: .acq (next + 2) ::
         (ifacLoop t A (divOut factor n).2 (factor + step) 2 (ac + 3)
           (next + 3)
           ⟨buf.cap, buf.recs ++
             [⟨next, next + 1, next + 2, factor, (divOut factor n).1⟩]⟩
           (divOut_spec n factor hf hn).2.2 (by omega) (by omega)).1,
       (ifacLoop t A (divOut factor n).2 (factor + step) 2 (ac + 3)
           (next + 3)
           ⟨buf.cap, buf.recs ++
             [⟨next, next + 1, next + 2, factor, (divOut factor n).1⟩]⟩
           (divOut_spec n factor hf hn).2.2 (by omega) (by omega)).2) := by
  conv_lhs => rw [ifacLoop]
  simp [hdvd, hA, hf5, hp5, hA1, hA2, hfull]

/-- The growth policy: appending to a full buffer (used length equal to
capacity) moves the capacity to the next step. -/
theorem capFor_succ_full (len : Nat) (h : len = capFor len) :
    capFor (len + 1) = capFor len + 10 := by
  unfold capFor at *
  omega

/-- The growth policy: appending to a buffer with room keeps the
capacity. -/
theorem capFor_succ_room (len cap : Nat) (hlt : len < cap)
    (hcap : cap = capFor len) : capFor (len + 1) = cap := by
  unfold capFor at *
  omega

/-- The (factor, multiplicity) pairs of a record list. -/
def recPairs (recs : List IRec) : List (Nat × Nat) :=
  recs.map fun r => (r.factor, r.power)

/-- Main functional invariant of the factor loop, on succeeding runs.
If the loop is entered at a reachable state — `step` and `factor` as the C
code produces them, every candidate below `factor` already divided out of
`n`, and the buffer shaped by the growth policy — and returns `.ok (m, fl)`,
then: the buffer grew by appended records only; the product of the new
records times the final remaining `m` reconstructs `n`; every new record's
factor lies between the entry factor and the final factor and has positive
multiplicity; no candidate below the final factor divides `m`, nor does
the final factor itself; the loop exited with `fl * fl > m`; the buffer
still satisfies the growth policy; and the result tuple was not freed in
place. -/
theorem ifacLoop_ok_inv (t : Nat) (A : Nat → Bool) :
    ∀ (n factor step ac next : Nat) (buf : IBuf) (hn : 0 < n)
      (hf : 2 ≤ factor) (hs : 1 ≤ step),
    ∀ (ev : List REv) (ac2 next2 : Nat) (buf2 : IBuf) (cl : Bool)
      (m fl : Nat),
    ifacLoop t A n factor step ac next buf hn hf hs =
      (ev, ac2, next2, buf2, cl, .ok (m, fl)) →
    ((step = 1 ∧ factor = 2) ∨ (step = 2 ∧ 3 ≤ factor ∧ factor % 2 = 1)) →
    (∀ d, 2 ≤ d → d < factor → ¬ d ∣ n) →
    buf.recs.length ≤ buf.cap →
    buf.cap = capFor buf.recs.length →
    ∃ newRecs,
      buf2.recs = buf.recs ++ newRecs ∧
      prodPow (recPairs newRecs) * m = n ∧
      (∀ r ∈ newRecs, factor ≤ r.factor ∧ r.factor < fl ∧ 1 ≤ r.power) ∧
      (∀ d, 2 ≤ d → d < fl → ¬ d ∣ m) ∧
      ¬ fl ∣ m ∧ fl * fl > m ∧ 0 < m ∧ factor ≤ fl ∧
      buf2.recs.length ≤ buf2.cap ∧ buf2.cap = capFor buf2.recs.length ∧
      cl = false := by
  intro n0 factor0 step0 ac0 next0 buf0 hn0 hf0 hs0
  induction n0, factor0, step0, ac0, next0, buf0, hn0, hf0, hs0
    using ifacLoop.induct t A with
  | case9 n factor step ac next buf hn hf hs hnd hbig =>
    intro ev ac2 next2 buf2 cl m fl hEq hstate hsmall hlen hcap
    rw [ifacLoop_break t A n factor step ac next buf hn hf hs hnd hbig] at hEq
    simp only [Prod.mk.injEq, Except.ok.injEq] at hEq
    obtain ⟨-, -, -, hbuf2, hcl, hm, hfl⟩ := hEq
    subst hbuf2 hcl hm hfl
    refine ⟨[], by simp, by simp [recPairs, prodPow], by simp, hsmall, ?_,
      hbig, hn, le_refl _, hlen, hcap, rfl⟩
    exact fun hd => hnd (Nat.mod_eq_zero_of_dvd hd)
  | case10 n factor step ac next buf hn hf hs hnd hnbig ih =>
    intro ev ac2 next2 buf2 cl m fl hEq hstate hsmall hlen hcap
    rw [ifacLoop_skip t A n factor step ac next buf hn hf hs hnd hnbig] at hEq
    have hstate2 : (2 = 1 ∧ factor + step = 2) ∨
        (2 = 2 ∧ 3 ≤ factor + step ∧ (factor + step) % 2 = 1) := by
      rcases hstate with ⟨h1, h2⟩ | ⟨h1, h2, h3⟩ <;> right <;> omega
    have hsmall2 : ∀ d, 2 ≤ d → d < factor + step → ¬ d ∣ n := by
      intro d hd2 hdlt hddvd
      rcases hstate with ⟨h1, h2⟩ | ⟨h1, h2, h3⟩
      · subst h1 h2
        have : d = 2 := by omega
        subst this
        exact hnd (Nat.mod_eq_zero_of_dvd hddvd)
      · subst h1
        rcases Nat.lt_or_ge d factor with hdf | hdf
        · exact hsmall d hd2 hdf hddvd
        · rcases Nat.eq_or_lt_of_le hdf with hde | hdg
          · exact hnd (Nat.mod_eq_zero_of_dvd (hde ▸ hddvd))
          · have hdeq : d = factor + 1 := by omega
            have h2d : (2 : Nat) ∣ d := by omega
            exact hsmall 2 (by omega) (by omega) (h2d.trans hddvd)
    obtain ⟨newRecs, hbr, hprod, hbound, hsm, hnd2, hbig2, hm2, hfle,
      hlen2, hcap2, hcl2⟩ :=
      ih ev ac2 next2 buf2 cl m fl hEq hstate2 hsmall2 hlen hcap
    exact ⟨newRecs, hbr, hprod,
      fun r hr => ⟨by have := (hbound r hr).1; omega, (hbound r hr).2.1,
        (hbound r hr).2.2⟩,
      hsm, hnd2, hbig2, hm2, by omega, hlen2, hcap2, hcl2⟩
  | case1 n step ac next buf hn hs hA hf hdvd =>
    intro ev ac2 next2 buf2 cl m fl hEq hstate hsmall hlen hcap
    rw [ifacLoop_factor5 t A n 5 step ac next buf hn hf hs hdvd hA rfl] at hEq
    simp at hEq
  | case2 n factor step ac next buf hn hf hs hdvd hA power hf5 hp5 =>
    intro ev ac2 next2 buf2 cl m fl hEq hstate hsmall hlen hcap
    rw [ifacLoop_power5 t A n factor step ac next buf hn hf hs hdvd hA hf5
      hp5] at hEq
    simp at hEq
  | case4 n factor step ac next buf hn hf hs hdvd hA power hf5 hp5 hA1 hA2
      hfull hA3 =>
    intro ev ac2 next2 buf2 cl m fl hEq hstate hsmall hlen hcap
    rw [ifacLoop_resizefail t A n factor step ac next buf hn hf hs hdvd hA
      hf5 hp5 hA1 hA2 hfull (by simpa using hA3)] at hEq
    simp at hEq
  | case6 n factor step ac next buf hn hf hs hdvd hA power hf5 hp5 hA1 hA2 =>
    intro ev ac2 next2 buf2 cl m fl hEq hstate hsmall hlen hcap
    rw [ifacLoop_nomem2 t A n factor step ac next buf hn hf hs hdvd hA hf5
      hp5 hA1 (by simpa using hA2)] at hEq
    simp at hEq
  | case7 n factor step ac next buf hn hf hs hdvd hA power hf5 hp5 hA1 =>
    intro ev ac2 next2 buf2 cl m fl hEq hstate hsmall hlen hcap
    rw [ifacLoop_nomem1 t A n factor step ac next buf hn hf hs hdvd hA hf5
      hp5 (by simpa using hA1)] at hEq
    simp at hEq
  | case8 n factor step ac next buf hn hf hs hdvd hA =>
    intro ev ac2 next2 buf2 cl m fl hEq hstate hsmall hlen hcap
    rw [ifacLoop_nomem0 t A n factor step ac next buf hn hf hs hdvd
      (by simpa using hA)] at hEq
    simp at hEq
  | case3 n factor step ac next buf hn hf hs hdvd hA e power n2 hf5 hp5 hA1
      f hA2 p hfull hA3 buf2b ih =>
    intro ev ac2 next2 buf2 cl m fl hEq hstate hsmall hlen hcap
    rw [ifacLoop_div_grow t A n factor step ac next buf hn hf hs hdvd hA hf5
      hp5 hA1 hA2 hfull hA3] at hEq
    simp only [Prod.mk.injEq] at hEq
    obtain ⟨hev, hrest⟩ := hEq
    have hdspec := divOut_spec n factor hf hn
    have hdn : (divOut factor n).2 ∣ n :=
      Dvd.intro_left (factor ^ (divOut factor n).1) hdspec.1
    have hstate2 : (2 = 1 ∧ factor + step = 2) ∨
        (2 = 2 ∧ 3 ≤ factor + step ∧ (factor + step) % 2 = 1) := by
      rcases hstate with ⟨h1, h2⟩ | ⟨h1, h2, h3⟩ <;> right <;> omega
    have hsmall2 : ∀ d, 2 ≤ d → d < factor + step →
        ¬ d ∣ (divOut factor n).2 := by
      intro d hd2 hdlt hddvd
      rcases Nat.lt_or_ge d factor with hdf | hdf
      · exact hsmall d hd2 hdf (hddvd.trans hdn)
      · rcases Nat.eq_or_lt_of_le hdf with hde | hdg
        · exact hdspec.2.1 (by rwa [← hde] at hddvd)
        · rcases hstate with ⟨h1, h2⟩ | ⟨h1, h2, h3⟩
          · omega
          · have h2d : (2 : Nat) ∣ d := by omega
            exact hsmall 2 (by omega) (by omega)
              ((h2d.trans hddvd).trans hdn)
    have hlenfull : buf.recs.length = capFor buf.recs.length :=
      hfull.trans hcap
    have hgrow := capFor_succ_full buf.recs.length hlenfull
    have hlen2 : buf.recs.length + 1 ≤ buf.cap + 10 := by omega
    have hcap2 : buf.cap + 10 = capFor (buf.recs.length + 1) := by omega
    obtain ⟨newRecs, hbr, hprod, hbound, hsm, hnd2, hbig2, hm2, hfle,
      hlen3, hcap3, hcl3⟩ :=
      ih _ ac2 next2 buf2 cl m fl (by rw [← hrest]) hstate2 hsmall2
        (by simpa using hlen2) (by simpa using hcap2)
    refine ⟨⟨next, next + 1, next + 2, factor, (divOut factor n).1⟩ ::
      newRecs, ?_, ?_, ?_, hsm, hnd2, hbig2, hm2, by omega, hlen3, hcap3,
      hcl3⟩
    · rw [hbr]
      simp
    · have h1 : prodPow (recPairs
          (⟨next, next + 1, next + 2, factor, (divOut factor n).1⟩ ::
            newRecs)) =
          factor ^ (divOut factor n).1 * prodPow (recPairs newRecs) := rfl
      rw [h1, mul_assoc, hprod]
      exact hdspec.1
    · intro r hr
      rcases List.mem_cons.mp hr with rfl | hr2
      · exact ⟨le_refl _, by show factor < fl; omega,
          (divOut_lt factor n hf hn hdvd).2⟩
      · exact ⟨by have := (hbound r hr2).1; omega, (hbound r hr2).2.1,
          (hbound r hr2).2.2⟩
  | case5 n factor step ac next buf hn hf hs hdvd hA e power n2 hf5 hp5 hA1
      f hA2 p hfull buf2b ih =>
    intro ev ac2 next2 buf2 cl m fl hEq hstate hsmall hlen hcap
    rw [ifacLoop_div_nogrow t A n factor step ac next buf hn hf hs hdvd hA
      hf5 hp5 hA1 hA2 hfull] at hEq
    simp only [Prod.mk.injEq] at hEq
    obtain ⟨hev, hrest⟩ := hEq
    have hdspec := divOut_spec n factor hf hn
    have hdn : (divOut factor n).2 ∣ n :=
      Dvd.intro_left (factor ^ (divOut factor n).1) hdspec.1
    have hstate2 : (2 = 1 ∧ factor + step = 2) ∨
        (2 = 2 ∧ 3 ≤ factor + step ∧ (factor + step) % 2 = 1) := by
      rcases hstate with ⟨h1, h2⟩ | ⟨h1, h2, h3⟩ <;> right <;> omega
    have hsmall2 : ∀ d, 2 ≤ d → d < factor + step →
        ¬ d ∣ (divOut factor n).2 := by
      intro d hd2 hdlt hddvd
      rcases Nat.lt_or_ge d factor with hdf | hdf
      · exact hsmall d hd2 hdf (hddvd.trans hdn)
      · rcases Nat.eq_or_lt_of_le hdf with hde | hdg
        · exact hdspec.2.1 (by rwa [← hde] at hddvd)
        · rcases hstate with ⟨h1, h2⟩ | ⟨h1, h2, h3⟩
          · omega
          · have h2d : (2 : Nat) ∣ d := by omega
            exact hsmall 2 (by omega) (by omega)
              ((h2d.trans hddvd).trans hdn)
    have hroom := capFor_succ_room buf.recs.length buf.cap
      (by omega) hcap
    have hlen2 : buf.recs.length + 1 ≤ buf.cap := by omega
    have hcap2 : buf.cap = capFor (buf.recs.length + 1) := by omega
    obtain ⟨newRecs, hbr, hprod, hbound, hsm, hnd2, hbig2, hm2, hfle,
      hlen3, hcap3, hcl3⟩ :=
      ih _ ac2 next2 buf2 cl m fl (by rw [← hrest]) hstate2 hsmall2
        (by simpa using hlen2) (by simpa using hcap2)
    refine ⟨⟨next, next + 1, next + 2, factor, (divOut factor n).1⟩ ::
      newRecs, ?_, ?_, ?_, hsm, hnd2, hbig2, hm2, by omega, hlen3, hcap3,
      hcl3⟩
    · rw [hbr]
      simp
    · have h1 : prodPow (recPairs
          (⟨next, next + 1, next + 2, factor, (divOut factor n).1⟩ ::
            newRecs)) =
          factor ^ (divOut factor n).1 * prodPow (recPairs newRecs) := rfl
      rw [h1, mul_assoc, hprod]
      exact hdspec.1
    · intro r hr
      rcases List.mem_cons.mp hr with rfl | hr2
      · exact ⟨le_refl _, by show factor < fl; omega,
          (divOut_lt factor n hf hn hdvd).2⟩
      · exact ⟨by have := (hbound r hr2).1; omega, (hbound r hr2).2.1,
          (hbound r hr2).2.2⟩

/-- Fuel-indexed evaluator for `ifacLoop`, mirroring its branches exactly;
used only to let the kernel compute concrete runs. -/
def ifacLoopF (fuel : Nat) (t : Nat) (A : Nat → Bool)
    (n factor step ac next : Nat) (buf : IBuf) :
    Option (List REv × Nat × Nat × IBuf × Bool × Except PyErr (Nat × Nat)) :=
  match fuel with
  | 0 => none
  | fuel + 1 =>
      if n % factor = 0 then
        if A ac then
          match divOutF fuel factor n with
          | none => none
          | some pw =>
              if factor = 5 then
                some ([.acq next, .rel next], ac + 1, next + 1, buf, false,
                  .error (.valueError "Aiee! Unlucky factor 5 found!"))
              else if pw.1 = 5 then
                some ([.acq next, .rel next], ac + 1, next + 1, buf, false,
                  .error (.valueError "Aiee! Unlucky power 5 found!"))
              else if A (ac + 1) then
                if A (ac + 2) then
                  if buf.recs.length = buf.cap then
                    if A (ac + 3) then
                      match ifacLoopF fuel t A pw.2 (factor + step) 2
                          (ac + 4) (next + 3)
                          ⟨buf.cap + 10, buf.recs ++
                            [⟨next, next + 1, next + 2, factor, pw.1⟩]⟩ with
                      | none => none
                      | some r =>
                          some (.acq next :: .acq (next + 1) ::
                            .acq (next + 2) :: r.1, r.2)
                    else
                      some (.acq next :: .acq (next + 1) :: .acq (next + 2) ::
                          relBuf t buf ++
                          [.rel next, .rel (next + 1), .rel (next + 2)],
                        ac + 4, next + 3, buf, true, .error .memoryError)
                  else
                    match ifacLoopF fuel t A pw.2 (factor + step) 2
                        (ac + 3) (next + 3)
                        ⟨buf.cap, buf.recs ++
                          [⟨next, next + 1, next + 2, factor, pw.1⟩]⟩ with
                    | none => none
                    | some r =>
                        some (.acq next :: .acq (next + 1) ::
                          .acq (next + 2) :: r.1, r.2)
                else
                  some ([.acq next, .acq (next + 1), .rel (next + 1),
                    .rel next], ac + 3, next + 2, buf, false,
                    .error .memoryError)
              else
                some ([.acq next, .rel next], ac + 2, next + 1, buf, false,
                  .error .memoryError)
        else some ([], ac + 1, next, buf, false, .error .memoryError)
      else if factor * factor > n then
        some ([], ac, next, buf, false, .ok (n, factor))
      else ifacLoopF fuel t A n (factor + step) 2 ac next buf

/-- The fuel-indexed evaluator agrees with `ifacLoop` whenever it
returns. -/
theorem ifacLoopF_eq (fuel : Nat) : ∀ (t : Nat) (A : Nat → Bool)
    (n factor step ac next : Nat) (buf : IBuf)
    (hn : 0 < n) (hf : 2 ≤ factor) (hs : 1 ≤ step)
    (r : List REv × Nat × Nat × IBuf × Bool × Except PyErr (Nat × Nat)),
    ifacLoopF fuel t A n factor step ac next buf = some r →
    ifacLoop t A n factor step ac next buf hn hf hs = r := by
  induction fuel with
  | zero => intro t A n factor step ac next buf hn hf hs r h
            simp [ifacLoopF] at h
  | succ fuel ih =>
      intro t A n factor step ac next buf hn hf hs r h
      unfold ifacLoopF at h
      by_cases hdvd : n % factor = 0
      · rw [if_pos hdvd] at h
        by_cases hA : A ac = true
        · rw [if_pos hA] at h
          rcases hpw : divOutF fuel factor n with - | pw
          · rw [hpw] at h; exact absurd h (by simp)
          · rw [hpw] at h
            simp only [] at h
            have hdo := divOutF_eq fuel factor n pw hpw
            by_cases hf5 : factor = 5
            · rw [if_pos hf5] at h
              rw [ifacLoop_factor5 t A n factor step ac next buf hn hf hs
                hdvd hA hf5]
              simpa using h
            · rw [if_neg hf5] at h
              by_cases hp5 : pw.1 = 5
              · rw [if_pos hp5] at h
                rw [ifacLoop_power5 t A n factor step ac next buf hn hf hs
                  hdvd hA hf5 (by rw [hdo]; exact hp5)]
                simpa using h
              · rw [if_neg hp5] at h
                by_cases hA1 : A (ac + 1) = true
                · rw [if_pos hA1] at h
                  by_cases hA2 : A (ac + 2) = true
                  · rw [if_pos hA2] at h
                    by_cases hfull : buf.recs.length = buf.cap
                    · rw [if_pos hfull] at h
                      by_cases hA3 : A (ac + 3) = true
                      · rw [if_pos hA3] at h
                        rcases hr2 : ifacLoopF fuel t A pw.2 (factor + step)
                            2 (ac + 4) (next + 3)
                            ⟨buf.cap + 10, buf.recs ++
                              [⟨next, next + 1, next + 2, factor,
                                pw.1⟩]⟩ with - | r2
                        · rw [hr2] at h; exact absurd h (by simp)
                        · rw [hr2] at h
                          simp only [] at h
                          rw [← hdo] at hr2
                          have hrec := ih t A (divOut factor n).2
                            (factor + step) 2 (ac + 4) (next + 3)
                            ⟨buf.cap + 10, buf.recs ++
                              [⟨next, next + 1, next + 2, factor,
                                (divOut factor n).1⟩]⟩
                            (divOut_spec n factor hf hn).2.2
                            (by omega) (by omega) r2 hr2
                          rw [ifacLoop_div_grow t A n factor step ac next buf
                            hn hf hs hdvd hA hf5
                            (by rw [hdo]; exact hp5) hA1 hA2 hfull hA3]
                          rw [Option.some.injEq] at h
                          rw [← hrec] at h
                          exact h
                      · rw [if_neg hA3] at h
                        rw [ifacLoop_resizefail t A n factor step ac next buf
                          hn hf hs hdvd hA hf5 (by rw [hdo]; exact hp5)
                          hA1 hA2 hfull (by simpa using hA3)]
                        simpa using h
                    · rw [if_neg hfull] at h
                      rcases hr2 : ifacLoopF fuel t A pw.2 (factor + step)
                          2 (ac + 3) (next + 3)
                          ⟨buf.cap, buf.recs ++
                            [⟨next, next + 1, next + 2, factor,
                              pw.1⟩]⟩ with - | r2
                      · rw [hr2] at h; exact absurd h (by simp)
                      · rw [hr2] at h
                        simp only [] at h
                        rw [← hdo] at hr2
                        have hrec := ih t A (divOut factor n).2
                          (factor + step) 2 (ac + 3) (next + 3)
                          ⟨buf.cap, buf.recs ++
                            [⟨next, next + 1, next + 2, factor,
                              (divOut factor n).1⟩]⟩
                          (divOut_spec n factor hf hn).2.2
                          (by omega) (by omega) r2 hr2
                        rw [ifacLoop_div_nogrow t A n factor step ac next buf
                          hn hf hs hdvd hA hf5
                          (by rw [hdo]; exact hp5) hA1 hA2 hfull]
                        rw [Option.some.injEq] at h
                        rw [← hrec] at h
                        exact h
                  · rw [if_neg hA2] at h
                    rw [ifacLoop_nomem2 t A n factor step ac next buf hn hf
                      hs hdvd hA hf5 (by rw [hdo]; exact hp5) hA1
                      (by simpa using hA2)]
                    simpa using h
                · rw [if_neg hA1] at h
                  rw [ifacLoop_nomem1 t A n factor step ac next buf hn hf hs
                    hdvd hA hf5 (by rw [hdo]; exact hp5)
                    (by simpa using hA1)]
                  simpa using h
        · rw [if_neg hA] at h
          rw [ifacLoop_nomem0 t A n factor step ac next buf hn hf hs hdvd
            (by simpa using hA)]
          simpa using h
      · rw [if_neg hdvd] at h
        by_cases hbig : factor * factor > n
        · rw [if_pos hbig] at h
          rw [ifacLoop_break t A n factor step ac next buf hn hf hs hdvd
            hbig]
          simpa using h
        · rw [if_neg hbig] at h
          rw [ifacLoop_skip t A n factor step ac next buf hn hf hs hdvd
            hbig]
          exact ih t A n (factor + step) 2 ac next buf hn (by omega)
            (by omega) r h

/-- Fuel-indexed evaluator for `ifactorize`, mirroring its branches; used
only to let the kernel compute concrete runs. -/
def ifactorizeF (fuel : Nat) (A : Nat → Bool) (n : Nat) :
    Option (List REv × Except PyErr (IBuf × Nat × Nat)) :=
  if n < 2 then some ([], .error (.valueError "cannot factorize one or zero"))
  else if A 0 then
    match ifacLoopF fuel 0 A n 2 1 1 1 ⟨10, []⟩ with
    | none => none
    | some r =>
        match r.2.2.2.2.2 with
        | .error e =>
            some (.acq 0 :: r.1 ++
              (if r.2.2.2.2.1 then [] else relBuf 0 r.2.2.2.1), .error e)
        | .ok (m, fl) =>
            if A r.2.1 then
              some (.acq 0 :: r.1,
                .ok (⟨r.2.2.2.1.recs.length, r.2.2.2.1.recs⟩, m, fl))
            else
              some (.acq 0 :: r.1 ++ relBuf 0 r.2.2.2.1, .error .memoryError)
  else some ([], .error .memoryError)

/-- The fuel-indexed evaluator agrees with `ifactorize` whenever it
returns. -/
theorem ifactorizeF_eq (fuel : Nat) (A : Nat → Bool) (n : Nat)
    (r : List REv × Except PyErr (IBuf × Nat × Nat))
    (h : ifactorizeF fuel A n = some r) : ifactorize A n = r := by
  unfold ifactorizeF at h
  unfold ifactorize
  by_cases hn2 : n < 2
  · rw [if_pos hn2] at h
    rw [dif_pos hn2]
    simpa using h
  · rw [if_neg hn2] at h
    rw [dif_neg hn2]
    by_cases hA0 : A 0 = true
    · rw [if_pos hA0] at h
      rw [if_pos hA0]
      rcases hr2 : ifacLoopF fuel 0 A n 2 1 1 1 ⟨10, []⟩ with - | r2
      · rw [hr2] at h; exact absurd h (by simp)
      · rw [hr2] at h
        simp only [] at h
        have hrec := ifacLoopF_eq fuel 0 A n 2 1 1 1 ⟨10, []⟩
          (by omega) (by omega) (by omega) r2 hr2
        simp only []
        rw [hrec]
        rcases r2res : r2.2.2.2.2.2 with e | mfl
        · rw [r2res] at h
          simp only [] at h
          simp only []
          simpa using h
        · rw [r2res] at h
          rcases mfl with ⟨m, fl⟩
          simp only [] at h
          simp only []
          by_cases hAtrim : A r2.2.1 = true
          · rw [if_pos hAtrim] at h
            rw [if_pos hAtrim]
            simpa using h
          · rw [if_neg hAtrim] at h
            rw [if_neg hAtrim]
            simpa using h
    · rw [if_neg hA0] at h
      rw [if_neg hA0]
      simpa using h

/-- Decomposition of a succeeding `ifactorize` run: the input passed the
range check, the result tuple was allocated, the factor loop succeeded,
the final trimming resize succeeded, and the returned buffer is the loop
buffer trimmed to its used length. -/
theorem ifactorize_ok_elim (A : Nat → Bool) (n : Nat) (buf : IBuf)
    (m fl : Nat)
    (h : (ifactorize A n).2 = .ok (buf, m, fl)) :
    ∃ (hn2 : ¬ n < 2) (hn : 0 < n) (hf : 2 ≤ (2:Nat)) (hs : 1 ≤ (1:Nat)),
      (ifacLoop 0 A n 2 1 1 1 ⟨10, []⟩ hn hf hs).2.2.2.2.2 = .ok (m, fl) ∧
      buf = ⟨(ifacLoop 0 A n 2 1 1 1 ⟨10, []⟩ hn hf hs).2.2.2.1.recs.length,
             (ifacLoop 0 A n 2 1 1 1 ⟨10, []⟩ hn hf hs).2.2.2.1.recs⟩ := by
  unfold ifactorize at h
  split at h
  · simp at h
  · rename_i hn2
    split at h
    · rename_i hA0
      simp only [] at h
      split at h
      · simp at h
      · rename_i m2 fl2 heq
        split at h
        · simp at h
          refine ⟨hn2, by omega, by omega, by omega, ?_, ?_⟩
          · rw [heq]
            simp [h.2.1, h.2.2]
          · rw [h.1]
        · simp at h
    · simp at h

/-- Master corollary for succeeding `factorize` runs: the returned records
times the final remaining value reconstruct the input; every recorded
factor is at least 2 and below the final trial factor; no candidate below
the final trial factor divides the remaining value, nor does that factor
itself, whose square exceeds it; the returned tuple is trimmed; and a
remaining value above 1 is a prime strictly greater than the final trial
factor (the omitted leftover factor). -/
theorem ifactorize_ok_main (A : Nat → Bool) (n : Nat) (buf : IBuf)
    (m fl : Nat)
    (h : (ifactorize A n).2 = .ok (buf, m, fl)) :
    2 ≤ n ∧
    prodPow (recPairs buf.recs) * m = n ∧
    (∀ r ∈ buf.recs, 2 ≤ r.factor ∧ r.factor < fl ∧ 1 ≤ r.power) ∧
    (∀ d, 2 ≤ d → d < fl → ¬ d ∣ m) ∧
    ¬ fl ∣ m ∧ fl * fl > m ∧ 0 < m ∧ 2 ≤ fl ∧
    buf.cap = buf.recs.length ∧
    (1 < m → fl < m ∧ Nat.Prime m) := by
  obtain ⟨hn2, hn, hf, hs, hok, hbuf⟩ := ifactorize_ok_elim A n buf m fl h
  obtain ⟨newRecs, hbr, hprod, hbound, hsm, hnd, hbig, hm, hfle, hlen2,
    hcap2, hcl⟩ :=
    ifacLoop_ok_inv 0 A n 2 1 1 1 ⟨10, []⟩ hn hf hs
      (ifacLoop 0 A n 2 1 1 1 ⟨10, []⟩ hn hf hs).1
      (ifacLoop 0 A n 2 1 1 1 ⟨10, []⟩ hn hf hs).2.1
      (ifacLoop 0 A n 2 1 1 1 ⟨10, []⟩ hn hf hs).2.2.1
      (ifacLoop 0 A n 2 1 1 1 ⟨10, []⟩ hn hf hs).2.2.2.1
      (ifacLoop 0 A n 2 1 1 1 ⟨10, []⟩ hn hf hs).2.2.2.2.1
      m fl (by rw [← hok]) (Or.inl ⟨rfl, rfl⟩)
      (by intro d h2 hlt; exact absurd hlt (by omega))
      (by simp) (by decide)
  have hrecs : buf.recs = newRecs := by
    rw [hbuf]
    simpa using hbr
  have hflm : 1 < m → fl < Nat.minFac m := by
    intro h1m
    by_contra hle
    rcases Nat.lt_or_ge (Nat.minFac m) fl with hlt | hge
    · exact hsm (Nat.minFac m) (Nat.minFac_prime (by omega)).two_le hlt
        (Nat.minFac_dvd m)
    · have : Nat.minFac m = fl := by omega
      exact hnd (this ▸ Nat.minFac_dvd m)
  refine ⟨by omega, ?_, ?_, hsm, hnd, hbig, hm, by omega, ?_, ?_⟩
  · rw [hrecs]
    exact hprod
  · intro r hr
    rw [hrecs] at hr
    exact ⟨by have := (hbound r hr).1; omega, (hbound r hr).2.1,
      (hbound r hr).2.2⟩
  · rw [hbuf]
  · intro h1m
    have hmf := hflm h1m
    have hmle := Nat.minFac_le (show 0 < m by omega)
    refine ⟨by omega, ?_⟩
    by_contra hnp
    have hsq := Nat.minFac_sq_le_self (show 0 < m by omega) hnp
    have : fl * fl < Nat.minFac m * Nat.minFac m :=
      Nat.mul_lt_mul_of_lt_of_le hmf (by omega) (by omega)
    have : Nat.minFac m ^ 2 = Nat.minFac m * Nat.minFac m := by ring
    omega

/-- Claim C3: on every input on which `factorize` succeeds, the
trial-division loop terminates at a state where the final trial factor
does not divide the remaining value and its square exceeds it, and when
the remaining value is greater than 1 (it is then itself a final prime
factor of the input) it is NOT appended to the returned sequence; in
particular `factorize 7 = ok ([])`: a prime input larger than the square
of the last tested candidate is entirely absent from the output. -/
theorem leftover_factor_omitted :
    (∀ (n : Nat) (buf : IBuf) (m fl : Nat),
      (ifactorize allocOk n).2 = .ok (buf, m, fl) →
      factorize n = .ok (recPairs buf.recs) ∧
      m % fl ≠ 0 ∧ fl * fl > m ∧
      (1 < m → ∀ mult : Nat, (m, mult) ∉ recPairs buf.recs)) ∧
    factorize 7 = .ok [] := by
  constructor
  · intro n buf m fl h
    obtain ⟨-, -, hbound, -, hnd, hbig, -, -, -, hprime⟩ :=
      ifactorize_ok_main allocOk n buf m fl h
    refine ⟨?_, ?_, hbig, ?_⟩
    · unfold factorize
      rw [h]
      simp [recPairs]
    · intro hmod
      exact hnd (Nat.dvd_of_mod_eq_zero hmod)
    · intro h1m mult hmem
      obtain ⟨r, hr, hreq⟩ := List.mem_map.mp hmem
      have h1 := (hbound r hr).2.1
      have h2 := (hprime h1m).1
      have : r.factor = m := congrArg Prod.fst hreq
      omega
  · simp [factorize, ifactorize, ifacLoop, divOut, allocOk]

/-- Claim C3 witness: `factorize 10` succeeds with remaining value 5 at
final trial factor 3, and the leftover 5 is not among the returned
records. -/
theorem leftover_factor_omitted_witness :
    factorize 10 = .ok (recPairs [⟨1, 2, 3, 2, 1⟩]) ∧
    (5 : Nat) % 3 ≠ 0 ∧ 3 * 3 > 5 ∧
    (1 < 5 → ∀ mult : Nat, ((5 : Nat), mult) ∉ recPairs [⟨1, 2, 3, 2, 1⟩]) :=
  leftover_factor_omitted.1 10 ⟨1, [⟨1, 2, 3, 2, 1⟩]⟩ 5 3
    (by simp [ifactorize, ifacLoop, divOut, allocOk])

/-- Claim C9: for every input on which `factorize` succeeds, the product
over the returned records of factor raised to its multiplicity divides the
input exactly, and the quotient is either 1 or a single prime strictly
greater than every recorded factor (the omitted leftover factor). -/
theorem factorize_product_quotient (n : Nat) (l : List (Nat × Nat))
    (h2 : 2 ≤ n) (h : factorize n = .ok l) :
    prodPow l ∣ n ∧
    (n / prodPow l = 1 ∨
      (Nat.Prime (n / prodPow l) ∧ ∀ fm ∈ l, fm.1 < n / prodPow l)) := by
  unfold factorize at h
  split at h
  · simp at h
  · rename_i buf m fl heq
    simp only [Except.ok.injEq] at h
    obtain ⟨-, hprod, hbound, -, -, -, hm, -, -, hprime⟩ :=
      ifactorize_ok_main allocOk n buf m fl heq
    have hl : l = recPairs buf.recs := h.symm
    subst hl
    have hPpos : 0 < prodPow (recPairs buf.recs) := by
      by_contra hz
      have h0 : prodPow (recPairs buf.recs) = 0 := by omega
      rw [h0, zero_mul] at hprod
      omega
    have hdivq : n / prodPow (recPairs buf.recs) = m := by
      rw [← hprod]
      exact Nat.mul_div_cancel_left m hPpos
    refine ⟨⟨m, hprod.symm⟩, ?_⟩
    rw [hdivq]
    rcases Nat.lt_or_ge 1 m with h1m | h1m
    · right
      refine ⟨(hprime h1m).2, ?_⟩
      intro fm hfm
      obtain ⟨r, hr, hreq⟩ := List.mem_map.mp hfm
      have h1 := (hbound r hr).2.1
      have h2 := (hprime h1m).1
      have : r.factor = fm.1 := congrArg Prod.fst hreq
      omega
    · left
      omega

/-- Claim C9 witness: `factorize 10 = ok ((2, 1))`, the product 2 divides
10, and the quotient 5 is prime and greater than the recorded factor 2. -/
theorem factorize_product_quotient_witness :
    prodPow [(2, 1)] ∣ 10 ∧
    (10 / prodPow [(2, 1)] = 1 ∨
      (Nat.Prime (10 / prodPow [(2, 1)]) ∧
        ∀ fm ∈ [((2 : Nat), (1 : Nat))], fm.1 < 10 / prodPow [(2, 1)])) :=
  factorize_product_quotient 10 [(2, 1)] (by norm_num)
    (by simp [factorize, ifactorize, ifacLoop, divOut, allocOk])

/-- Fuel-indexed evaluator for `factorize`; used only to let the kernel
compute concrete runs. -/
def factorizeF (fuel n : Nat) : Option (Except PyErr (List (Nat × Nat))) :=
  match ifactorizeF fuel allocOk n with
  | none => none
  | some r =>
      some (match r.2 with
        | .error e => .error e
        | .ok (buf, _, _) => .ok (buf.recs.map fun rc => (rc.factor, rc.power)))

/-- The fuel-indexed evaluator agrees with `factorize` whenever it
returns. -/
theorem factorizeF_eq (fuel n : Nat) (x : Except PyErr (List (Nat × Nat)))
    (h : factorizeF fuel n = some x) : factorize n = x := by
  unfold factorizeF at h
  rcases hr : ifactorizeF fuel allocOk n with - | r
  · rw [hr] at h
    exact absurd h (by simp)
  · rw [hr] at h
    simp only [Option.some.injEq] at h
    have hi := ifactorizeF_eq fuel allocOk n r hr
    unfold factorize
    rw [hi]
    exact h

/-- Concrete run: factorizing the product of the first 12 primes other
than 5 (60850052705442 = 2*3*7*11*13*17*19*23*29*31*37*41) discovers 11
factors — the leftover 41 is omitted — exercising one capacity growth
(pre-trim capacity 20, trimmed to 11). -/
theorem factorizeF_bigrun :
    factorizeF 30 60850052705442 =
      some (.ok [(2, 1), (3, 1), (7, 1), (11, 1), (13, 1), (17, 1), (19, 1),
        (23, 1), (29, 1), (31, 1), (37, 1)]) := by
  decide

/-- Claim C8: the output sequence of `factorize` starts at a fixed capacity
of 10 slots and, whenever the used length reaches the capacity, grows by
exactly 10 more slots (not doubling) before the next append — so on every
succeeding run the loop's pre-trim capacity is exactly
`10 * max 1 (ceiling of used/10)`; on success the tuple is trimmed to the
exact used length before being returned; and growth events neither lose
nor duplicate records: the product of the first 12 primes other than 5
yields 11 records — more than the initial 10 slots, with the pre-trim
capacity grown to 20 — each recorded exactly once. -/
theorem growth_policy :
    capFor 0 = 10 ∧
    (∀ len : Nat, len = capFor len → capFor (len + 1) = capFor len + 10) ∧
    (∀ len cap : Nat, len < cap → cap = capFor len → capFor (len + 1) = cap) ∧
    (∀ (A : Nat → Bool) (n : Nat) (buf : IBuf) (m fl : Nat),
      (ifactorize A n).2 = .ok (buf, m, fl) → buf.cap = buf.recs.length) ∧
    (∀ (A : Nat → Bool) (n : Nat) (hn : 0 < n) (hf : 2 ≤ (2:Nat))
       (hs : 1 ≤ (1:Nat)) (m fl : Nat),
      (ifacLoop 0 A n 2 1 1 1 ⟨10, []⟩ hn hf hs).2.2.2.2.2 = .ok (m, fl) →
      (ifacLoop 0 A n 2 1 1 1 ⟨10, []⟩ hn hf hs).2.2.2.1.cap =
        capFor
          (ifacLoop 0 A n 2 1 1 1 ⟨10, []⟩ hn hf hs).2.2.2.1.recs.length) ∧
    capFor 11 = 20 ∧
    factorize 60850052705442 =
      .ok [(2, 1), (3, 1), (7, 1), (11, 1), (13, 1), (17, 1), (19, 1),
           (23, 1), (29, 1), (31, 1), (37, 1)] := by
  refine ⟨by decide, capFor_succ_full, capFor_succ_room, ?_, ?_, by decide,
    ?_⟩
  · intro A n buf m fl h
    exact (ifactorize_ok_main A n buf m fl h).2.2.2.2.2.2.2.2.1
  · intro A n hn hf hs m fl hok
    obtain ⟨newRecs, hbr, hprod, hbound, hsm, hnd, hbig, hm, hfle, hlen2,
      hcap2, hcl⟩ :=
      ifacLoop_ok_inv 0 A n 2 1 1 1 ⟨10, []⟩ hn hf hs
        (ifacLoop 0 A n 2 1 1 1 ⟨10, []⟩ hn hf hs).1
        (ifacLoop 0 A n 2 1 1 1 ⟨10, []⟩ hn hf hs).2.1
        (ifacLoop 0 A n 2 1 1 1 ⟨10, []⟩ hn hf hs).2.2.1
        (ifacLoop 0 A n 2 1 1 1 ⟨10, []⟩ hn hf hs).2.2.2.1
        (ifacLoop 0 A n 2 1 1 1 ⟨10, []⟩ hn hf hs).2.2.2.2.1
        m fl (by rw [← hok]) (Or.inl ⟨rfl, rfl⟩)
        (by intro d h2 hlt; exact absurd hlt (by omega))
        (by simp) (by decide)
    exact hcap2
  · exact factorizeF_eq 30 60850052705442 _ factorizeF_bigrun

/-- Claim C8 witness: the trim and pre-trim capacity statements applied to
the concrete run `factorize 12` (two records, capacity trimmed from 10 to
2), and the growth step applied at the boundary length 10. -/
theorem growth_policy_witness :
    (⟨2, [⟨1, 2, 3, 2, 2⟩, ⟨4, 5, 6, 3, 1⟩]⟩ : IBuf).cap =
      (⟨2, [⟨1, 2, 3, 2, 2⟩, ⟨4, 5, 6, 3, 1⟩]⟩ : IBuf).recs.length ∧
    capFor (10 + 1) = capFor 10 + 10 :=
  ⟨growth_policy.2.2.2.1 allocOk 12 ⟨2, [⟨1, 2, 3, 2, 2⟩, ⟨4, 5, 6, 3, 1⟩]⟩
      1 5 (by simp [ifactorize, ifacLoop, divOut, allocOk]),
   growth_policy.2.1 10 (by decide)⟩

/-- How many times a handle id is acquired in a trace. -/
def countA (id : Nat) : List REv → Nat
  | [] => 0
  | .acq j :: tr => (if j = id then 1 else 0) + countA id tr
  | .rel _ :: tr => countA id tr

/-- How many times a handle id is released in a trace. -/
def countR (id : Nat) : List REv → Nat
  | [] => 0
  | .rel j :: tr => (if j = id then 1 else 0) + countR id tr
  | .acq _ :: tr => countR id tr

/-- How many references to a handle id the stored factor records own. -/
def countRecs (id : Nat) : List IRec → Nat
  | [] => 0
  | r :: recs =>
      (if r.eltId = id then 1 else 0) + (if r.fId = id then 1 else 0) +
        (if r.pId = id then 1 else 0) + countRecs id recs

/-- How many references to a handle id the dictionary entries own. -/
def countEnts (id : Nat) : List MdEntry → Nat
  | [] => 0
  | e :: ents =>
      (if e.keyRef = id then 1 else 0) + (if e.valRef = id then 1 else 0) +
        countEnts id ents

/-- Unfolding lemma: an acquisition event counts toward acquisitions. -/
theorem countA_acq (id j : Nat) (tr : List REv) :
    countA id (.acq j :: tr) = (if j = id then 1 else 0) + countA id tr :=
  rfl

/-- Unfolding lemma: a release event does not count toward acquisitions. -/
theorem countA_rel (id j : Nat) (tr : List REv) :
    countA id (.rel j :: tr) = countA id tr := rfl

/-- Unfolding lemma: the empty trace has no acquisitions. -/
theorem countA_nil (id : Nat) : countA id [] = 0 := rfl

/-- Unfolding lemma: a release event counts toward releases. -/
theorem countR_rel (id j : Nat) (tr : List REv) :
    countR id (.rel j :: tr) = (if j = id then 1 else 0) + countR id tr :=
  rfl

/-- Unfolding lemma: an acquisition event does not count toward
releases. -/
theorem countR_acq (id j : Nat) (tr : List REv) :
    countR id (.acq j :: tr) = countR id tr := rfl

/-- Unfolding lemma: the empty trace has no releases. -/
theorem countR_nil (id : Nat) : countR id [] = 0 := rfl

/-- A trace is balanced when no handle is acquired twice and every handle
is released exactly as many times as it was acquired: each acquired handle
is released exactly once, nothing is released twice, nothing is released
that was not acquired, and the host's net resource-acquisition count
returns to its pre-call value. -/
def balancedTrace (tr : List REv) : Prop :=
  ∀ id : Nat, countA id tr ≤ 1 ∧ countR id tr = countA id tr

/-- Acquisition counts add over concatenation. -/
theorem countA_append (id : Nat) (a b : List REv) :
    countA id (a ++ b) = countA id a + countA id b := by
  induction a with
  | nil => simp [countA]
  | cons x a ih =>
      cases x <;> simp [countA, ih] <;> omega

/-- Release counts add over concatenation. -/
theorem countR_append (id : Nat) (a b : List REv) :
    countR id (a ++ b) = countR id a + countR id b := by
  induction a with
  | nil => simp [countR]
  | cons x a ih =>
      cases x <;> simp [countR, ih] <;> omega

/-- Record reference counts add over concatenation. -/
theorem countRecs_append (id : Nat) (a b : List IRec) :
    countRecs id (a ++ b) = countRecs id a + countRecs id b := by
  induction a with
  | nil => simp [countRecs]
  | cons r a ih => simp [countRecs, ih]; omega

/-- Releasing the result tuple emits no acquisitions. -/
theorem countA_relBuf (id t : Nat) (buf : IBuf) :
    countA id (relBuf t buf) = 0 := by
  show countA id (.rel t ::
    buf.recs.foldr (fun r acc => relElt r ++ acc) []) = 0
  rw [countA]
  induction buf.recs with
  | nil => simp [countA]
  | cons r recs ih =>
      simp only [List.foldr]
      rw [countA_append, ih]
      simp [relElt, countA]

/-- Releasing the result tuple releases its own handle once and each
reference owned by its records once. -/
theorem countR_relBuf (id t : Nat) (buf : IBuf) :
    countR id (relBuf t buf) =
      (if t = id then 1 else 0) + countRecs id buf.recs := by
  show countR id (.rel t ::
    buf.recs.foldr (fun r acc => relElt r ++ acc) []) =
    (if t = id then 1 else 0) + countRecs id buf.recs
  rw [countR]
  congr 1
  induction buf.recs with
  | nil => simp [countR, countRecs]
  | cons r recs ih =>
      simp only [List.foldr]
      rw [countR_append, ih]
      simp [relElt, countR, countRecs]
      omega

/-- Releasing the dictionary emits no acquisitions. -/
theorem countA_relDict (id d : Nat) (entries : List MdEntry) :
    countA id (relDict d entries) = 0 := by
  show countA id (.rel d ::
    entries.foldr (fun e acc => .rel e.keyRef :: .rel e.valRef :: acc) []) = 0
  rw [countA]
  induction entries with
  | nil => simp [countA]
  | cons e entries ih =>
      simp only [List.foldr]
      rw [countA, countA]
      exact ih

/-- Releasing the dictionary releases its own handle once and each stored
key and value reference once. -/
theorem countR_relDict (id d : Nat) (entries : List MdEntry) :
    countR id (relDict d entries) =
      (if d = id then 1 else 0) + countEnts id entries := by
  show countR id (.rel d ::
    entries.foldr (fun e acc => .rel e.keyRef :: .rel e.valRef :: acc) []) =
    (if d = id then 1 else 0) + countEnts id entries
  rw [countR]
  congr 1
  induction entries with
  | nil => simp [countR, countEnts]
  | cons e entries ih =>
      simp only [List.foldr]
      rw [countR, countR, ih]
      simp [countEnts]
      omega

/-- Bookkeeping facts about one factor-loop run: the fresh-handle counter
does not decrease; no handle is acquired twice, and handles acquired inside
are exactly from the fresh range; when the result tuple was not freed in
place, the releases inside plus the references the final buffer owns
balance the acquisitions inside plus the references the initial buffer
owned; when it was freed in place, the releases inside additionally cover
the tuple handle itself. -/
def traceOk (t next next2 : Nat) (ev : List REv) (buf buf2 : IBuf)
    (cl : Bool) : Prop :=
  next ≤ next2 ∧
  (∀ id, countA id ev ≤ 1) ∧
  (∀ id, 1 ≤ countA id ev → next ≤ id ∧ id < next2) ∧
  (cl = false → ∀ id,
    countR id ev + countRecs id buf2.recs =
      countA id ev + countRecs id buf.recs) ∧
  (cl = true → ∀ id,
    countR id ev =
      (if t = id then 1 else 0) + countA id ev + countRecs id buf.recs)

/-- A run that emitted nothing is balanced. -/
theorem traceOk_nil (t next : Nat) (buf : IBuf) :
    traceOk t next next [] buf buf false := by
  refine ⟨le_refl _, fun id => by simp [countA],
    fun id h => by simp [countA] at h, fun _ id => by simp [countA, countR],
    by simp⟩

/-- A run that acquired one fresh handle and released it is balanced. -/
theorem traceOk_pair (t next : Nat) (buf : IBuf) :
    traceOk t next (next + 1) [.acq next, .rel next] buf buf false := by
  refine ⟨by omega, ?_, ?_, ?_, by simp⟩
  · intro id
    simp [countA]
    split <;> omega
  · intro id h
    simp [countA] at h
    split at h <;> omega
  · intro _ id
    simp only [countA_acq, countA_rel, countA_nil, countR_acq, countR_rel,
      countR_nil]

/-- A run that acquired two fresh handles and released both is balanced. -/
theorem traceOk_pair2 (t next : Nat) (buf : IBuf) :
    traceOk t next (next + 2)
      [.acq next, .acq (next + 1), .rel (next + 1), .rel next]
      buf buf false := by
  refine ⟨by omega, ?_, ?_, ?_, by simp⟩
  · intro id
    simp [countA]
    split_ifs <;> omega
  · intro id h
    simp [countA] at h
    split_ifs at h <;> omega
  · intro _ id
    simp only [countA_acq, countA_rel, countA_nil, countR_acq, countR_rel,
      countR_nil]
    omega

/-- A failing resize frees the result tuple in place; together with the
unwind of the three fresh handles of the current iteration, everything is
covered. -/
theorem traceOk_resizefail (t next : Nat) (buf : IBuf) :
    traceOk t next (next + 3)
      (.acq next :: .acq (next + 1) :: .acq (next + 2) ::
        relBuf t buf ++ [.rel next, .rel (next + 1), .rel (next + 2)])
      buf buf true := by
  have hA : ∀ id, countA id
      (.acq next :: .acq (next + 1) :: .acq (next + 2) ::
        relBuf t buf ++ [.rel next, .rel (next + 1), .rel (next + 2)]) =
      (if next = id then 1 else 0) + (if next + 1 = id then 1 else 0) +
        (if next + 2 = id then 1 else 0) := by
    intro id
    simp only [countA_acq, countA_rel, countA_nil, countA_append,
      countA_relBuf]
    omega
  have hR : ∀ id, countR id
      (.acq next :: .acq (next + 1) :: .acq (next + 2) ::
        relBuf t buf ++ [.rel next, .rel (next + 1), .rel (next + 2)]) =
      (if t = id then 1 else 0) + countRecs id buf.recs +
        ((if next = id then 1 else 0) + (if next + 1 = id then 1 else 0) +
          (if next + 2 = id then 1 else 0)) := by
    intro id
    simp only [countR_acq, countR_rel, countR_nil, countR_append,
      countR_relBuf]
    omega
  refine ⟨by omega, ?_, ?_, by simp, ?_⟩
  · intro id
    rw [hA id]
    split_ifs <;> omega
  · intro id h
    rw [hA id] at h
    split_ifs at h <;> omega
  · intro _ id
    rw [hA id, hR id]
    omega

/-- Prepending the three fresh acquisitions of a stored record to a
balanced continuation that starts from the buffer extended with that
record yields a balanced run. -/
theorem traceOk_step (t next next2 fx px : Nat) (ev2 : List REv)
    (buf bufmid buf2 : IBuf) (cl : Bool)
    (hmid : bufmid.recs =
      buf.recs ++ [⟨next, next + 1, next + 2, fx, px⟩])
    (h : traceOk t (next + 3) next2 ev2 bufmid buf2 cl) :
    traceOk t next next2
      (.acq next :: .acq (next + 1) :: .acq (next + 2) :: ev2)
      buf buf2 cl := by
  obtain ⟨h1, h2, h3, h4, h5⟩ := h
  have hz : ∀ id, id < next + 3 → countA id ev2 = 0 := by
    intro id hlt
    by_contra hnz
    have := h3 id (by omega)
    omega
  refine ⟨by omega, ?_, ?_, ?_, ?_⟩
  · intro id
    have h2i := h2 id
    simp only [countA_acq]
    by_cases hlt : id < next + 3
    · have := hz id hlt
      split_ifs <;> omega
    · split_ifs <;> omega
  · intro id hge
    simp only [countA_acq] at hge
    by_cases hlt : id < next + 3
    · have := hz id hlt
      split_ifs at hge <;> omega
    · have hcnt : 1 ≤ countA id ev2 := by split_ifs at hge <;> omega
      have := h3 id hcnt
      omega
  · intro hcl id
    have h4i := h4 hcl id
    rw [hmid, countRecs_append] at h4i
    simp [countRecs] at h4i
    simp only [countA_acq, countR_acq]
    omega
  · intro hcl id
    have h5i := h5 hcl id
    rw [hmid, countRecs_append] at h5i
    simp [countRecs] at h5i
    simp only [countA_acq, countR_acq]
    omega

/-- Resource bookkeeping invariant of the factor loop, for every outcome:
every run satisfies `traceOk` — fresh distinct acquisitions, and releases
balancing acquisitions relative to the references the buffer owns, with
the result tuple's own handle covered exactly when a failed resize freed
it in place. -/
theorem ifacLoop_trace_inv (t : Nat) (A : Nat → Bool) :
    ∀ (n factor step ac next : Nat) (buf : IBuf) (hn : 0 < n)
      (hf : 2 ≤ factor) (hs : 1 ≤ step),
    ∀ (ev : List REv) (ac2 next2 : Nat) (buf2 : IBuf) (cl : Bool)
      (res : Except PyErr (Nat × Nat)),
    ifacLoop t A n factor step ac next buf hn hf hs =
      (ev, ac2, next2, buf2, cl, res) →
    traceOk t next next2 ev buf buf2 cl ∧
      (cl = true → res = .error .memoryError) := by
  intro n0 factor0 step0 ac0 next0 buf0 hn0 hf0 hs0
  induction n0, factor0, step0, ac0, next0, buf0, hn0, hf0, hs0
    using ifacLoop.induct t A with
  | case1 n step ac next buf hn hs hA hf hdvd =>
    intro ev ac2 next2 buf2 cl res hEq
    rw [ifacLoop_factor5 t A n 5 step ac next buf hn hf hs hdvd hA rfl]
      at hEq
    simp only [Prod.mk.injEq] at hEq
    obtain ⟨h1, h2, h3, h4, h5, h6⟩ := hEq
    subst h1 h2 h3 h4 h5 h6
    exact ⟨traceOk_pair t next buf, by simp⟩
  | case2 n factor step ac next buf hn hf hs hdvd hA power hf5 hp5 =>
    intro ev ac2 next2 buf2 cl res hEq
    rw [ifacLoop_power5 t A n factor step ac next buf hn hf hs hdvd hA hf5
      hp5] at hEq
    simp only [Prod.mk.injEq] at hEq
    obtain ⟨h1, h2, h3, h4, h5, h6⟩ := hEq
    subst h1 h2 h3 h4 h5 h6
    exact ⟨traceOk_pair t next buf, by simp⟩
  | case4 n factor step ac next buf hn hf hs hdvd hA power hf5 hp5 hA1 hA2
      hfull hA3 =>
    intro ev ac2 next2 buf2 cl res hEq
    rw [ifacLoop_resizefail t A n factor step ac next buf hn hf hs hdvd hA
      hf5 hp5 hA1 hA2 hfull (by simpa using hA3)] at hEq
    simp only [Prod.mk.injEq] at hEq
    obtain ⟨h1, h2, h3, h4, h5, h6⟩ := hEq
    subst h1 h2 h3 h4 h5 h6
    exact ⟨traceOk_resizefail t next buf, fun _ => rfl⟩
  | case6 n factor step ac next buf hn hf hs hdvd hA power hf5 hp5 hA1 hA2 =>
    intro ev ac2 next2 buf2 cl res hEq
    rw [ifacLoop_nomem2 t A n factor step ac next buf hn hf hs hdvd hA hf5
      hp5 hA1 (by simpa using hA2)] at hEq
    simp only [Prod.mk.injEq] at hEq
    obtain ⟨h1, h2, h3, h4, h5, h6⟩ := hEq
    subst h1 h2 h3 h4 h5 h6
    exact ⟨traceOk_pair2 t next buf, by simp⟩
  | case7 n factor step ac next buf hn hf hs hdvd hA power hf5 hp5 hA1 =>
    intro ev ac2 next2 buf2 cl res hEq
    rw [ifacLoop_nomem1 t A n factor step ac next buf hn hf hs hdvd hA hf5
      hp5 (by simpa using hA1)] at hEq
    simp only [Prod.mk.injEq] at hEq
    obtain ⟨h1, h2, h3, h4, h5, h6⟩ := hEq
    subst h1 h2 h3 h4 h5 h6
    exact ⟨traceOk_pair t next buf, by simp⟩
  | case8 n factor step ac next buf hn hf hs hdvd hA =>
    intro ev ac2 next2 buf2 cl res hEq
    rw [ifacLoop_nomem0 t A n factor step ac next buf hn hf hs hdvd
      (by simpa using hA)] at hEq
    simp only [Prod.mk.injEq] at hEq
    obtain ⟨h1, h2, h3, h4, h5, h6⟩ := hEq
    subst h1 h2 h3 h4 h5 h6
    exact ⟨traceOk_nil t next buf, by simp⟩
  | case9 n factor step ac next buf hn hf hs hnd hbig =>
    intro ev ac2 next2 buf2 cl res hEq
    rw [ifacLoop_break t A n factor step ac next buf hn hf hs hnd hbig]
      at hEq
    simp only [Prod.mk.injEq] at hEq
    obtain ⟨h1, h2, h3, h4, h5, h6⟩ := hEq
    subst h1 h2 h3 h4 h5 h6
    exact ⟨traceOk_nil t next buf, by simp⟩
  | case10 n factor step ac next buf hn hf hs hnd hnbig ih =>
    intro ev ac2 next2 buf2 cl res hEq
    rw [ifacLoop_skip t A n factor step ac next buf hn hf hs hnd hnbig]
      at hEq
    exact ih ev ac2 next2 buf2 cl res hEq
  | case3 n factor step ac next buf hn hf hs hdvd hA e power n2 hf5 hp5 hA1
      f hA2 p hfull hA3 buf2b ih =>
    intro ev ac2 next2 buf2 cl res hEq
    rw [ifacLoop_div_grow t A n factor step ac next buf hn hf hs hdvd hA
      hf5 hp5 hA1 hA2 hfull hA3] at hEq
    simp only [Prod.mk.injEq] at hEq
    obtain ⟨hev, hrest⟩ := hEq
    subst hev
    obtain ⟨ihA, ihB⟩ := ih _ ac2 next2 buf2 cl res (by rw [← hrest])
    exact ⟨traceOk_step t next next2 factor (divOut factor n).1 _ buf _ buf2
      cl rfl ihA, ihB⟩
  | case5 n factor step ac next buf hn hf hs hdvd hA e power n2 hf5 hp5 hA1
      f hA2 p hfull buf2b ih =>
    intro ev ac2 next2 buf2 cl res hEq
    rw [ifacLoop_div_nogrow t A n factor step ac next buf hn hf hs hdvd hA
      hf5 hp5 hA1 hA2 hfull] at hEq
    simp only [Prod.mk.injEq] at hEq
    obtain ⟨hev, hrest⟩ := hEq
    subst hev
    obtain ⟨ihA, ihB⟩ := ih _ ac2 next2 buf2 cl res (by rw [← hrest])
    exact ⟨traceOk_step t next next2 factor (divOut factor n).1 _ buf _ buf2
      cl rfl ihA, ihB⟩

/-- Reference bookkeeping of one `PyDict_SetItem`: it emits no
acquisitions of its own (the caller acquired the fresh key and value
references `kr` and `vr`), and its releases plus the references the
updated entries own equal the references the old entries owned plus the
two fresh references. -/
theorem imdSet_counts (kr vr : Nat) (k v : PyVal) :
    ∀ (entries : List MdEntry) (id : Nat),
      countA id (imdSet entries kr vr k v).1 = 0 ∧
      countR id (imdSet entries kr vr k v).1 +
        countEnts id (imdSet entries kr vr k v).2 =
        countEnts id entries + (if kr = id then 1 else 0) +
          (if vr = id then 1 else 0) := by
  intro entries
  induction entries with
  | nil =>
      intro id
      simp [imdSet, countA, countR, countEnts]
  | cons e rest ih =>
      intro id
      rw [imdSet]
      by_cases hpe : pyEq e.key k = true
      · simp only [hpe, if_true]
        simp [countA, countR, countEnts]
        omega
      · rw [if_neg hpe]
        simp only []
        obtain ⟨ih1, ih2⟩ := ih id
        refine ⟨by simpa using ih1, ?_⟩
        simp only [countEnts]
        omega

/-- Combination step for the `makedict` element loop: prepending the two
fresh reference acquisitions and the `PyDict_SetItem` bookkeeping to a
balanced continuation yields a balanced run. -/
theorem mdStep (next next2 : Nat) (s1 r1 : List REv)
    (entries mid entries2 : List MdEntry)
    (hs1A : ∀ id, countA id s1 = 0)
    (hs1R : ∀ id, countR id s1 + countEnts id mid =
      countEnts id entries + (if next = id then 1 else 0) +
        (if next + 1 = id then 1 else 0))
    (h1 : next + 2 ≤ next2)
    (h2 : ∀ id, countA id r1 ≤ 1)
    (h3 : ∀ id, 1 ≤ countA id r1 → next + 2 ≤ id ∧ id < next2)
    (h4 : ∀ id, countR id r1 + countEnts id entries2 =
      countA id r1 + countEnts id mid) :
    next ≤ next2 ∧
    (∀ id, countA id (.acq next :: .acq (next + 1) :: s1 ++ r1) ≤ 1) ∧
    (∀ id, 1 ≤ countA id (.acq next :: .acq (next + 1) :: s1 ++ r1) →
      next ≤ id ∧ id < next2) ∧
    (∀ id, countR id (.acq next :: .acq (next + 1) :: s1 ++ r1) +
        countEnts id entries2 =
      countA id (.acq next :: .acq (next + 1) :: s1 ++ r1) +
        countEnts id entries) := by
  have hz : ∀ id, id < next + 2 → countA id r1 = 0 := by
    intro id hlt
    by_contra hnz
    have := h3 id (by omega)
    omega
  refine ⟨by omega, ?_, ?_, ?_⟩
  · intro id
    have h2i := h2 id
    have hs1Ai := hs1A id
    simp only [countA_acq, countA_append]
    by_cases hlt : id < next + 2
    · have := hz id hlt
      split_ifs <;> omega
    · split_ifs <;> omega
  · intro id hge
    simp only [countA_acq, countA_append] at hge
    have hs1Ai := hs1A id
    by_cases hlt : id < next + 2
    · have := hz id hlt
      split_ifs at hge <;> omega
    · have hcnt : 1 ≤ countA id r1 := by split_ifs at hge <;> omega
      have := h3 id hcnt
      omega
  · intro id
    have h4i := h4 id
    have hs1Ri := hs1R id
    have hs1Ai := hs1A id
    simp only [countA_acq, countA_append, countR_acq, countR_append]
    omega

/-- Resource bookkeeping invariant of the `makedict` element loop, for
every outcome: fresh distinct acquisitions, and releases balancing
acquisitions relative to the references the dictionary entries own. -/
theorem imdLoop_inv (A : Nat → Bool) :
    ∀ (elems : List PyVal) (ac next : Nat) (entries : List MdEntry)
      (ev : List REv) (ac2 next2 : Nat) (entries2 : List MdEntry)
      (res : Option PyErr),
    imdLoop A elems ac next entries = (ev, ac2, next2, entries2, res) →
    next ≤ next2 ∧
    (∀ id, countA id ev ≤ 1) ∧
    (∀ id, 1 ≤ countA id ev → next ≤ id ∧ id < next2) ∧
    (∀ id, countR id ev + countEnts id entries2 =
      countA id ev + countEnts id entries) := by
  intro elems
  induction elems with
  | nil =>
      intro ac next entries ev ac2 next2 entries2 res hEq
      simp only [imdLoop, Prod.mk.injEq] at hEq
      obtain ⟨h1, h2, h3, h4, h5⟩ := hEq
      subst h1 h3 h4
      exact ⟨le_refl _, fun id => by simp [countA],
        fun id h => by simp [countA] at h,
        fun id => by simp [countA, countR]⟩
  | cons item rest ih =>
      intro ac next entries ev ac2 next2 entries2 res hEq
      have leafCase : ev = [] → next2 = next → entries2 = entries →
          next ≤ next2 ∧
          (∀ id, countA id ev ≤ 1) ∧
          (∀ id, 1 ≤ countA id ev → next ≤ id ∧ id < next2) ∧
          (∀ id, countR id ev + countEnts id entries2 =
            countA id ev + countEnts id entries) := by
        intro he hn2 hent
        subst he hn2 hent
        exact ⟨le_refl _, fun id => by simp [countA],
          fun id h => by simp [countA] at h,
          fun id => by simp [countA, countR]⟩
      rcases item with l | ⟨a2, k2, b2⟩
      case atom =>
        simp only [imdLoop, Prod.mk.injEq] at hEq
        obtain ⟨h1, h2, h3, h4, h5⟩ := hEq
        exact leafCase h1.symm h3.symm h4.symm
      case tuple =>
        match l with
        | [] =>
            simp only [imdLoop, Prod.mk.injEq] at hEq
            obtain ⟨h1, h2, h3, h4, h5⟩ := hEq
            exact leafCase h1.symm h3.symm h4.symm
        | [x] =>
            simp only [imdLoop, Prod.mk.injEq] at hEq
            obtain ⟨h1, h2, h3, h4, h5⟩ := hEq
            exact leafCase h1.symm h3.symm h4.symm
        | x :: y :: z :: w =>
            simp only [imdLoop, Prod.mk.injEq] at hEq
            obtain ⟨h1, h2, h3, h4, h5⟩ := hEq
            exact leafCase h1.symm h3.symm h4.symm
        | [first, second] =>
            rw [imdLoop] at hEq
            by_cases hse :
                (isExceptMeObj first || isExceptMeObj second) = true
            · rw [if_pos hse] at hEq
              simp only [Prod.mk.injEq] at hEq
              obtain ⟨h1, h2, h3, h4, h5⟩ := hEq
              exact leafCase h1.symm h3.symm h4.symm
            · rw [if_neg hse] at hEq
              by_cases hAc : A ac = true
              · rw [if_pos hAc] at hEq
                simp only [Prod.mk.injEq] at hEq
                obtain ⟨hev, hac2, hnext2, hent2, hres⟩ := hEq
                subst hev
                obtain ⟨g1, g2, g3, g4⟩ :=
                  ih (ac + 1) (next + 2)
                    (imdSet entries next (next + 1) first second).2
                    (imdLoop A rest (ac + 1) (next + 2)
                      (imdSet entries next (next + 1) first second).2).1
                    ac2 next2 entries2 res
                    (by rw [← hac2, ← hnext2, ← hent2, ← hres])
                exact mdStep next next2
                  (imdSet entries next (next + 1) first second).1
                  (imdLoop A rest (ac + 1) (next + 2)
                    (imdSet entries next (next + 1) first second).2).1
                  entries
                  (imdSet entries next (next + 1) first second).2
                  entries2
                  (fun id => (imdSet_counts next (next + 1) first second
                    entries id).1)
                  (fun id => (imdSet_counts next (next + 1) first second
                    entries id).2)
                  g1 g2 g3 g4
              · rw [if_neg hAc] at hEq
                simp only [Prod.mk.injEq] at hEq
                obtain ⟨h1, h2, h3, h4, h5⟩ := hEq
                exact leafCase h1.symm h3.symm h4.symm

/-- Every failing `factorize` call leaves a balanced resource trace:
whatever failed — the range check, any allocation (including a resize that
freed the result tuple in place), or an injected error — every reference
acquired before the failure is released exactly once on the unwind path
and nothing is released twice. -/
theorem ifactorize_err_balanced (A : Nat → Bool) (n : Nat) (tr : List REv)
    (e : PyErr) (h : ifactorize A n = (tr, .error e)) : balancedTrace tr := by
  unfold ifactorize at h
  split at h
  · simp only [Prod.mk.injEq] at h
    rw [← h.1]
    intro id
    simp [countA, countR]
  · rename_i hn2
    split at h
    · rename_i hA0
      simp only [] at h
      rcases hC : ifacLoop 0 A n 2 1 1 1 ⟨10, []⟩ (by omega) (by omega)
          (by omega) with ⟨ev, ac2, next2, buf2, cl, res⟩
      rw [hC] at h
      obtain ⟨⟨g1, g2, g3, g4, g5⟩, g6⟩ :=
        ifacLoop_trace_inv 0 A n 2 1 1 1 ⟨10, []⟩ (by omega) (by omega)
          (by omega) ev ac2 next2 buf2 cl res hC
      have hbal0 : ∀ rest : List REv,
          (∀ id, countR id rest + countRecs id buf2.recs =
            countA id rest + 0) →
          balancedTrace (.acq 0 :: rest ++ relBuf 0 buf2) → True := fun _ _ _ => trivial
      rcases res with e2 | ⟨m, fl⟩
      · simp only [Prod.mk.injEq] at h
        obtain ⟨htr, -⟩ := h
        rw [← htr]
        cases cl with
        | false =>
            intro id
            simp only [if_neg (by simp : ¬ (false = true))]
            simp only [countA_acq, countA_append, countA_relBuf, countR_acq,
              countR_append, countR_relBuf]
            have g4i := g4 rfl id
            simp only [countRecs] at g4i
            have hid0 : 1 ≤ countA id ev → 1 ≤ id :=
              fun hc => (g3 id hc).1
            constructor
            · by_cases h0 : (0 : Nat) = id
              · have hz : countA id ev = 0 := by
                  by_contra hnz
                  have := hid0 (by omega)
                  omega
                rw [if_pos h0]
                omega
              · rw [if_neg h0]
                have := g2 id
                omega
            · omega
        | true =>
            intro id
            simp only [if_pos (rfl : (true : Bool) = true), List.append_nil,
              countA_acq, countR_acq, countA_append, countA_nil,
              countR_append, countR_nil]
            have g5i := g5 rfl id
            simp only [countRecs] at g5i
            have hid0 : 1 ≤ countA id ev → 1 ≤ id :=
              fun hc => (g3 id hc).1
            simp only [if_true, countA_nil, countR_nil, Nat.add_zero]
            constructor
            · by_cases h0 : (0 : Nat) = id
              · have hz : countA id ev = 0 := by
                  by_contra hnz
                  have := hid0 (by omega)
                  omega
                rw [if_pos h0]
                omega
              · rw [if_neg h0]
                have := g2 id
                omega
            · omega
      · have hclf : cl = false := by
          cases cl with
          | false => rfl
          | true => exact absurd (g6 rfl) (by simp)
        subst hclf
        simp only [] at h
        split at h
        · simp at h
        · simp only [Prod.mk.injEq] at h
          obtain ⟨htr, -⟩ := h
          rw [← htr]
          intro id
          simp only [countA_acq, countA_append, countA_relBuf, countR_acq,
            countR_append, countR_relBuf]
          have g4i := g4 rfl id
          simp only [countRecs] at g4i
          have hid0 : 1 ≤ countA id ev → 1 ≤ id :=
            fun hc => (g3 id hc).1
          constructor
          · by_cases h0 : (0 : Nat) = id
            · have hz : countA id ev = 0 := by
                by_contra hnz
                have := hid0 (by omega)
                omega
              rw [if_pos h0]
              omega
            · rw [if_neg h0]
              have := g2 id
              omega
          · omega
    · simp only [Prod.mk.injEq] at h
      rw [← h.1]
      intro id
      simp [countA, countR]

/-- Every failing `makedict` call leaves a balanced resource trace:
whatever failed — the tuple check, shape validation, the sentinel check,
or an allocation inside `PyDict_SetItem` — every reference acquired before
the failure (the dictionary and every stored key and value reference) is
released exactly once on the unwind path and nothing is released twice. -/
theorem imakedict_err_balanced (A : Nat → Bool) (items : PyVal)
    (msg : String) (lines : List String) (tr : List REv) (e : PyErr)
    (h : imakedict A items msg = (lines, tr, .error e)) :
    balancedTrace tr := by
  unfold imakedict at h
  simp only [Prod.mk.injEq] at h
  obtain ⟨-, hpair⟩ := h
  rcases items with elems | ⟨a2, k2, b2⟩
  case atom =>
    simp only [Prod.mk.injEq] at hpair
    rw [← hpair.1]
    intro id
    simp [countA, countR]
  case tuple =>
    simp only [] at hpair
    by_cases hA0 : A 0 = true
    · rw [if_pos hA0] at hpair
      rcases hR : imdLoop A elems 1 1 [] with ⟨ev, ac2, next2, entries2, resO⟩
      rw [hR] at hpair
      obtain ⟨g1, g2, g3, g4⟩ :=
        imdLoop_inv A elems 1 1 [] ev ac2 next2 entries2 resO hR
      rcases resO with - | e2
      · simp at hpair
      · simp only [Prod.mk.injEq] at hpair
        obtain ⟨htr, -⟩ := hpair
        rw [← htr]
        intro id
        simp only [countA_acq, countA_append, countA_relDict, countR_acq,
          countR_append, countR_relDict]
        have g4i := g4 id
        simp only [countEnts] at g4i
        have hid0 : 1 ≤ countA id ev → 1 ≤ id :=
          fun hc => (g3 id hc).1
        constructor
        · by_cases h0 : (0 : Nat) = id
          · have hz : countA id ev = 0 := by
              by_contra hnz
              have := hid0 (by omega)
              omega
            rw [if_pos h0]
            omega
          · rw [if_neg h0]
            have := g2 id
            omega
        · omega
    · rw [if_neg hA0] at hpair
      simp only [Prod.mk.injEq] at hpair
      rw [← hpair.1]
      intro id
      simp [countA, countR]

/-- Claim C1: for every call to `makedict` or `factorize` that fails at
any step — under any host allocation oracle, so including allocation
failures at every allocation point, failed resizes that free the result
tuple in place, validation errors and the injected errors — every
resource (object reference) acquired before the failure is released
exactly once and nothing is released twice: each acquired handle is
released on exactly one of the commit path or the unwind path, so the
host's resource-acquisition count returns to its pre-call value after any
failing call. -/
theorem exactly_once_release :
    (∀ (A : Nat → Bool) (items : PyVal) (msg : String)
       (lines : List String) (tr : List REv) (e : PyErr),
      imakedict A items msg = (lines, tr, .error e) → balancedTrace tr) ∧
    (∀ (A : Nat → Bool) (n : Nat) (tr : List REv) (e : PyErr),
      ifactorize A n = (tr, .error e) → balancedTrace tr) :=
  ⟨imakedict_err_balanced, ifactorize_err_balanced⟩

/-- Claim C1 witness: the failing calls `makedict(((ExceptMe, v),), "m")`
(which acquires the dictionary and releases it on unwind) and
`factorize(32)` (which acquires the result tuple and the element of the
record under construction, both released on unwind) leave balanced
traces. -/
theorem exactly_once_release_witness :
    balancedTrace [.acq 0, .rel 0] ∧
    balancedTrace [.acq 0, .acq 1, .rel 1, .rel 0] :=
  ⟨exactly_once_release.1 allocOk
      (.tuple [.tuple [ExceptMe, .atom 9 9 false]]) "m"
      ["makedict says: “m”"] [.acq 0, .rel 0]
      (.valueError "ExceptMe object found")
      (by simp [imakedict, imdLoop, allocOk, isExceptMeObj, ExceptMe,
        relDict]),
   exactly_once_release.2 allocOk 32 [.acq 0, .acq 1, .rel 1, .rel 0]
      (.valueError "Aiee! Unlucky power 5 found!")
      (by simp [ifactorize, ifacLoop, divOut, allocOk, relBuf, relElt])⟩
